import Mathlib

/-!
Verification of the graph-style-customizer core: the BFS neighbor finder
(`src/neighborFinder.ts`) and the style resolver (`src/graphStyler.ts`).
JavaScript `Map`s are modeled as association lists (insertion order kept),
JS `Set`s as duplicate-free lists in insertion order, JS numbers used by the
styler as rationals, and JS `undefined`/`null` as `Option`.  A JS value of
`NaN` produced by `parseInt` is modeled as `none`.
-/

set_option maxHeartbeats 1000000

namespace GSC

/-! ### JavaScript string primitives, modeled over character lists -/

def jsStartsWith (s p : String) : Bool := p.toList.isPrefixOf s.toList

def jsEndsWith (s p : String) : Bool := p.toList.isSuffixOf s.toList

def jsDrop (s : String) (n : Nat) : String := String.mk (s.toList.drop n)

def jsContainsChar (s : String) (c : Char) : Bool := s.toList.contains c

/-- JS string falsiness: only the empty string is falsy. -/
def jsFalsy (s : String) : Bool := s.toList.isEmpty

/-- JS truthiness test for a possibly-absent string (`undefined`/`null`/`''` are falsy). -/
def jsTruthyId (a : Option String) : Bool :=
  match a with
  | some s => !jsFalsy s
  | none => false

/-- JS `a || b` on possibly-absent strings. -/
def jsOrStr (a b : Option String) : Option String :=
  match a with
  | some s => if jsFalsy s then b else some s
  | none => b

/-- JS `a || b` where `b` is a definitely-present string. -/
def jsOrStrD (a : Option String) (b : String) : String :=
  match a with
  | some s => if jsFalsy s then b else s
  | none => b

/-- JS `a || b` on numbers (`0` is falsy). -/
def jsOrRat (a : Option Rat) (b : Rat) : Rat :=
  match a with
  | some x => if x = 0 then b else x
  | none => b

/-! ### JS `Map` / `Set` primitives (association lists in insertion order) -/

def mapGet {κ α : Type} [DecidableEq κ] (m : List (κ × α)) (k : κ) : Option α :=
  match m with
  | [] => none
  | p :: rest => if p.1 = k then some p.2 else mapGet rest k

/-- `Map.set`: replace the binding in place, or append a fresh one. -/
def mapSet {κ α : Type} [DecidableEq κ] (m : List (κ × α)) (k : κ) (v : α) : List (κ × α) :=
  match m with
  | [] => [(k, v)]
  | p :: rest => if p.1 = k then (k, v) :: rest else p :: mapSet rest k v

def hasKey {κ α : Type} [DecidableEq κ] (m : List (κ × α)) (k : κ) : Bool :=
  (mapGet m k).isSome

/-- JS `Set.add`: append unless already present. -/
def setAdd (s : List String) (x : String) : List String :=
  if x ∈ s then s else s ++ [x]

/-! ### NeighborFinder: graph construction (`buildFromNodes`, `addEdge`, `getLinks`) -/

/-- The adjacency list `Map<string, Set<string>>`. -/
abbrev AdjGraph := List (String × List String)

/-- `adjacencyList.get(x) || new Set()`. -/
def adj (g : AdjGraph) (x : String) : List String := (mapGet g x).getD []

/-- A dynamically-typed JS value observed while iterating a link collection. -/
inductive JVal where
  | jstr (s : String)
  | jobj (id : Option String)
  | jother
deriving DecidableEq

/-- The shapes of `node.forward` / `node.reverse` handled by `getLinks`. -/
inductive LinkData where
  | noData
  | withForEach (entries : List (JVal × JVal))
  | plainObject (keys : List String)
deriving DecidableEq

/-- One step of the `forEach` callback in `getLinks` (`target`, `key`). -/
def linkPush (links : List String) (target key : JVal) : List String :=
  match key with
  | .jstr k =>
      if jsContainsChar k '/' then links ++ [k]
      else match target with
        | .jstr t => links ++ [t]
        | .jobj (some i) => links ++ [i]
        | _ => links
  | _ =>
      match target with
      | .jstr t => links ++ [t]
      | .jobj (some i) => links ++ [i]
      | _ => links

def getLinks : LinkData → List String
  | .noData => []
  | .withForEach entries => entries.foldl (fun ls e => linkPush ls e.1 e.2) []
  | .plainObject keys => keys.foldl (fun ls k => ls ++ [k]) []

/-- A node descriptor from the host (possibly null). -/
inductive NodeDesc where
  | nullNode
  | node (forward reverse : LinkData)
deriving DecidableEq

/-- The three accepted collection shapes (`Map`, array, plain record). -/
inductive NodesInput where
  | mapInput (entries : List (String × NodeDesc))
  | arrayInput (items : List (Option (String × NodeDesc)))
  | recordInput (entries : List (String × NodeDesc))
deriving DecidableEq

/-- Normalization of the input collection into `[id, node]` entries;
array items with no usable `id` (or null nodes) are skipped. -/
def nodeEntriesOf : NodesInput → List (String × NodeDesc)
  | .mapInput es => es
  | .arrayInput items =>
      items.foldl (fun acc it =>
        match it with
        | some e => acc ++ [e]
        | none => acc) []
  | .recordInput es => es

def addEdge (g : AdjGraph) (fromId toId : String) : AdjGraph :=
  let g1 := if hasKey g fromId then g else mapSet g fromId []
  let g2 := if hasKey g1 toId then g1 else mapSet g1 toId []
  let g3 := mapSet g2 fromId (setAdd ((mapGet g2 fromId).getD []) toId)
  mapSet g3 toId (setAdd ((mapGet g3 toId).getD []) fromId)

def buildFromNodes (input : NodesInput) : AdjGraph :=
  let entries := nodeEntriesOf input
  let g0 : AdjGraph := entries.foldl (fun g e => if hasKey g e.1 then g else mapSet g e.1 []) []
  entries.foldl (fun g e =>
    match e.2 with
    | .nullNode => g
    | .node fwd rev =>
        let g1 := (getLinks fwd).foldl (fun gg t => addEdge gg e.1 t) g
        (getLinks rev).foldl (fun gg src => addEdge gg src e.1) g1) g0

/-! ### NeighborFinder: BFS (`findNeighborsByHop`, `getAllConnectedNodes`) -/

/-- `result` initialized with an empty set for each hop `1..maxHops`. -/
def initHops (maxHops : Nat) : List (Nat × List String) :=
  (List.range maxHops).map (fun i => (i + 1, ([] : List String)))

/-- `result.get(distance)!.add(currentId)` (the key is always present when called). -/
def resultAdd (result : List (Nat × List String)) (h : Nat) (x : String) :
    List (Nat × List String) :=
  match mapGet result h with
  | some s => mapSet result h (setAdd s x)
  | none => result

/-- The inner `neighbors.forEach` of `findNeighborsByHop`: enqueue unvisited neighbors. -/
def enqueueNeighbors (visited : List String) (queue : List (String × Nat)) (dist : Nat) :
    List String → List String × List (String × Nat)
  | [] => (visited, queue)
  | n :: rest =>
      if n ∈ visited then enqueueNeighbors visited queue dist rest
      else enqueueNeighbors (visited ++ [n]) (queue ++ [(n, dist + 1)]) dist rest

/-- The `while (queue.length > 0)` loop of `findNeighborsByHop`.
`fuel` is a termination device; `bfsFuel` below always suffices. -/
def bfsLoop (g : AdjGraph) (maxHops : Nat) :
    Nat → List String → List (String × Nat) → List (Nat × List String) → List (Nat × List String)
  | _, _, [], result => result
  | 0, _, _ :: _, result => result
  | fuel + 1, visited, (currentId, distance) :: queue, result =>
      let result1 :=
        if 0 < distance ∧ distance ≤ maxHops then resultAdd result distance currentId else result
      if distance < maxHops then
        let vq := enqueueNeighbors visited queue distance (adj g currentId)
        bfsLoop g maxHops fuel vq.1 vq.2 result1
      else
        bfsLoop g maxHops fuel visited queue result1

def allNeighborIds (g : AdjGraph) : List String := (g.map Prod.snd).flatten

def bfsFuel (g : AdjGraph) : Nat := (allNeighborIds g).length + 2

def findNeighborsByHop (g : AdjGraph) (sourceId : String) (maxHops : Nat) :
    List (Nat × List String) :=
  let result := initHops maxHops
  if hasKey g sourceId then bfsLoop g maxHops (bfsFuel g) [sourceId] [(sourceId, 0)] result
  else result

/-- The inner `neighbors.forEach` of `getAllConnectedNodes`. -/
def enqueueAll (visited queue : List String) : List String → List String × List String
  | [] => (visited, queue)
  | n :: rest =>
      if n ∈ visited then enqueueAll visited queue rest
      else enqueueAll (visited ++ [n]) (queue ++ [n]) rest

/-- The `while` loop of `getAllConnectedNodes`. -/
def connLoop (g : AdjGraph) (sourceId : String) :
    Nat → List String → List String → List String → List String
  | _, _, [], connected => connected
  | 0, _, _ :: _, connected => connected
  | fuel + 1, visited, currentId :: queue, connected =>
      let connected1 := if currentId = sourceId then connected else setAdd connected currentId
      let vq := enqueueAll visited queue (adj g currentId)
      connLoop g sourceId fuel vq.1 vq.2 connected1

def getAllConnectedNodes (g : AdjGraph) (sourceId : String) : List String :=
  if hasKey g sourceId then connLoop g sourceId (bfsFuel g) [sourceId] [sourceId] []
  else []

/-! ### Graph-distance specification (independent of the BFS code) -/

def adjMem (g : AdjGraph) (x y : String) : Prop := y ∈ adj g x

instance (g : AdjGraph) (x y : String) : Decidable (adjMem g x y) :=
  inferInstanceAs (Decidable (y ∈ adj g x))

/-- Walks of a given length along the stored adjacency relation. -/
inductive PathTo (g : AdjGraph) (s : String) : String → Nat → Prop where
  | refl : PathTo g s s 0
  | step {x y : String} {n : Nat} : PathTo g s x n → adjMem g x y → PathTo g s y (n + 1)

def IsShortest (g : AdjGraph) (s x : String) (n : Nat) : Prop :=
  PathTo g s x n ∧ ∀ k, PathTo g s x k → n ≤ k

def ReachableFrom (g : AdjGraph) (s x : String) : Prop := ∃ n, PathTo g s x n

/-- The symmetric closure of the adjacency relation (edges of the undirected graph). -/
def adjU (g : AdjGraph) (x y : String) : Prop := adjMem g x y ∨ adjMem g y x

/-- Walks in the undirected graph. -/
inductive UPathTo (g : AdjGraph) (s : String) : String → Nat → Prop where
  | refl : UPathTo g s s 0
  | step {x y : String} {n : Nat} : UPathTo g s x n → adjU g x y → UPathTo g s y (n + 1)

def IsUShortest (g : AdjGraph) (s x : String) (n : Nat) : Prop :=
  UPathTo g s x n ∧ ∀ k, UPathTo g s x k → n ≤ k

/-- Membership of a node in the hop set for hop `h`. -/
def hopMem (result : List (Nat × List String)) (h : Nat) (x : String) : Prop :=
  ∃ l, mapGet result h = some l ∧ x ∈ l

/-! ### Proof-side auxiliary definitions -/

/-- The construction invariant of the Graph Builder: the adjacency structure is
symmetric and every neighbor is itself a key. -/
def SymClosed (g : AdjGraph) : Prop :=
  (∀ a b, adjMem g a b → adjMem g b a) ∧ (∀ a b, adjMem g a b → hasKey g b = true)

/-- How many candidate ids are not yet visited (termination measure for BFS). -/
def unvisitedCount (cands visited : List String) : Nat :=
  (cands.filter (fun c => decide (c ∉ visited))).length

/-- The sublist of `ns` that a BFS expansion step newly marks visited,
in order, without duplicates. -/
def freshOnes (visited : List String) : List String → List String
  | [] => []
  | n :: rest =>
      if n ∈ visited then freshOnes visited rest
      else n :: freshOnes (visited ++ [n]) rest

/-- Executable symmetry check of an adjacency structure. -/
def symCheckOn (g : AdjGraph) : Bool :=
  g.all (fun p => p.2.all (fun b => decide (p.1 ∈ adj g b)))

/-- The loop invariant of `getAllConnectedNodes`. -/
structure ConnInv (g : AdjGraph) (s : String)
    (visited queue connected : List String) : Prop where
  queue_sub : ∀ x, x ∈ queue → x ∈ visited
  vis_reach : ∀ x, x ∈ visited → ReachableFrom g s x
  vis_proc : ∀ x, x ∈ visited → x ∈ queue ∨ (∀ y, adjMem g x y → y ∈ visited)
  vis_conn : ∀ x, x ∈ visited → x = s ∨ x ∈ queue ∨ x ∈ connected
  conn_sub : ∀ x, x ∈ connected → x ∈ visited ∧ x ≠ s
  src_vis : s ∈ visited

/-- The loop invariant of `findNeighborsByHop`. -/
structure BfsInv (g : AdjGraph) (s : String) (maxHops : Nat)
    (visited : List String) (queue : List (String × Nat))
    (result : List (Nat × List String)) : Prop where
  queue_sub : ∀ e, e ∈ queue → e.1 ∈ visited
  queue_dist : ∀ e, e ∈ queue → IsShortest g s e.1 e.2
  queue_le : ∀ e, e ∈ queue → e.2 ≤ maxHops
  queue_sorted : queue.Pairwise (fun e1 e2 => e1.2 ≤ e2.2 ∧ e2.2 ≤ e1.2 + 1)
  res_keys : ∀ h, (mapGet result h).isSome = true ↔ (1 ≤ h ∧ h ≤ maxHops)
  res_sound : ∀ h x, hopMem result h x → IsShortest g s x h
  vis_spec : ∀ x, x ∈ visited → ∃ k, IsShortest g s x k ∧
      ((x, k) ∈ queue ∨ ((1 ≤ k → k ≤ maxHops → hopMem result k x) ∧
        (k < maxHops → ∀ y, adjMem g x y → y ∈ visited)))
  frontier : ∀ e qt, queue = e :: qt → ∀ x k, IsShortest g s x k → k ≤ e.2 → x ∈ visited
  src_vis : s ∈ visited

/-! ### GraphStyler: data model (`types.ts`) -/

inductive NodeShape where
  | circle | square | diamond | triangle | hexagon
deriving DecidableEq

inductive RuleType where
  | tag | folder | file
deriving DecidableEq

inductive EdgeColorMode where
  | inherit | byHop | single
deriving DecidableEq

structure StyleRule where
  id : String
  type : RuleType
  pattern : String
  color : Option String
  shape : Option NodeShape
  size : Option Rat
  enabled : Bool
deriving DecidableEq

structure GraphStyleSettings where
  maxHops : Nat
  selectedNodeColor : String
  hopColors : List String
  disconnectedOpacity : Rat
  defaultNodeShape : NodeShape
  defaultNodeSize : Rat
  activeNodeSize : Rat
  edgeColorMode : EdgeColorMode
  edgeColor : String
  highlightedEdgeColor : String
  hopEdgeColors : List String
  activeEdgeWidth : Rat
  defaultEdgeWidth : Rat
  disconnectedEdgeWidth : Rat
  rules : List StyleRule
deriving DecidableEq

/-- Front-matter `tags`: a single string or an array. -/
inductive FmTags where
  | one (t : String)
  | many (ts : List String)
deriving DecidableEq

/-- The metadata-cache entry for one file (inline tag strings + front-matter tags). -/
structure FileCache where
  tags : Option (List String)
  frontmatterTags : Option FmTags
deriving DecidableEq

/-- The external vault/metadata lookup: node id ↦ file cache, if the id
resolves to a file with cached metadata. -/
def Vault : Type := String → Option FileCache

/-! ### GraphStyler: rule matching (`hasTag`, `getStyleFromRules`) -/

def hasTag (file : Option FileCache) (tagPattern : String) : Bool :=
  match file with
  | none => false
  | some cache =>
      let normalizedPattern := if jsStartsWith tagPattern "#" then tagPattern else "#" ++ tagPattern
      let inlineHit :=
        match cache.tags with
        | some ts => ts.any (fun t =>
            t == normalizedPattern || jsStartsWith t (normalizedPattern ++ "/"))
        | none => false
      let fmHit :=
        match cache.frontmatterTags with
        | some fm =>
            let fmTags := match fm with | .one t => [t] | .many ts => ts
            fmTags.any (fun tag =>
              let normalizedTag := if jsStartsWith tag "#" then tag else "#" ++ tag
              normalizedTag == normalizedPattern ||
                jsStartsWith normalizedTag (normalizedPattern ++ "/"))
        | none => false
      inlineHit || fmHit

/-- The `switch (rule.type)` computing `matches` inside `getStyleFromRules`. -/
def ruleMatches (vault : Vault) (nodeId : String) (rule : StyleRule) : Bool :=
  match rule.type with
  | .folder => jsStartsWith nodeId rule.pattern
  | .tag => hasTag (vault nodeId) rule.pattern
  | .file =>
      nodeId == rule.pattern
        || jsEndsWith nodeId ("/" ++ rule.pattern)
        || nodeId == rule.pattern ++ ".md"
        || jsEndsWith nodeId ("/" ++ rule.pattern ++ ".md")

/-- The override returned by the first enabled matching rule. -/
structure RuleOverride where
  color : Option String
  shape : Option NodeShape
  size : Option Rat
deriving DecidableEq

/-- The `for (const rule of this.settings.rules)` loop of `getStyleFromRules`. -/
def findRuleOverride (vault : Vault) (nodeId : String) : List StyleRule → Option RuleOverride
  | [] => none
  | rule :: rest =>
      if !rule.enabled then findRuleOverride vault nodeId rest
      else if ruleMatches vault nodeId rule then some ⟨rule.color, rule.shape, rule.size⟩
      else findRuleOverride vault nodeId rest

def getStyleFromRules (vault : Vault) (rules : List StyleRule) (nodeId : String) :
    Option RuleOverride :=
  if rules.isEmpty then none else findRuleOverride vault nodeId rules

/-! ### GraphStyler: `parseColor` and JS `parseInt(·, 16)` -/

def isHexDigit (c : Char) : Bool :=
  c.isDigit || ('a' ≤ c && c ≤ 'f') || ('A' ≤ c && c ≤ 'F')

def hexDigitVal (c : Char) : Nat :=
  if c.isDigit then c.toNat - '0'.toNat
  else if 'a' ≤ c ∧ c ≤ 'f' then c.toNat - 'a'.toNat + 10
  else if 'A' ≤ c ∧ c ≤ 'F' then c.toNat - 'A'.toNat + 10
  else 0

/-- Value of the longest leading run of hex digits, starting from `acc`. -/
def hexRunVal (acc : Nat) : List Char → Nat
  | [] => acc
  | c :: cs => if isHexDigit c then hexRunVal (16 * acc + hexDigitVal c) cs else acc

/-- Longest hex-digit prefix; `none` (NaN) when there is no leading digit. -/
def hexRun : List Char → Option Nat
  | [] => none
  | c :: cs => if isHexDigit c then some (hexRunVal (hexDigitVal c) cs) else none

/-- After sign handling, radix 16 strips a leading `0x`/`0X`. -/
def hexBody (cs : List Char) : Option Nat :=
  match cs with
  | c :: x :: rest =>
      if c = '0' ∧ (x = 'x' ∨ x = 'X') then hexRun rest else hexRun (c :: x :: rest)
  | _ => hexRun cs

/-- JS `parseInt(s, 16)`; `none` models `NaN`. -/
def jsParseIntHex (s : String) : Option Int :=
  match s.toList.dropWhile Char.isWhitespace with
  | [] => none
  | c :: rest =>
      if c = '-' then (hexBody rest).map (fun n => -(n : Int))
      else if c = '+' then (hexBody rest).map (fun n => (n : Int))
      else (hexBody (c :: rest)).map (fun n => (n : Int))

def parseColor (color : String) : Option Int :=
  if jsStartsWith color "#" then jsParseIntHex (jsDrop color 1) else some 0xFFFFFF

/-- Specification-side plain hexadecimal value of a digit string
(big-endian fold; no sign, prefix or junk handling). -/
def hexValueSpec (s : String) : Nat :=
  s.toList.foldl (fun a c => 16 * a + hexDigitVal c) 0

/-! ### GraphStyler: node style resolution (`applyStyles`, per-node part) -/

/-- `for (let hop = 1; hop <= maxHops; hop++) if (neighborsByHop.get(hop)?.has(nodeId)) …`:
the first hop in `1..maxHops` whose set contains `nodeId`. -/
def hopOf (neighborsByHop : List (Nat × List String)) (maxHops : Nat) (nodeId : String) :
    Option Nat :=
  (List.range maxHops).findSome? (fun i =>
    match mapGet neighborsByHop (i + 1) with
    | some s => if nodeId ∈ s then some (i + 1) else none
    | none => none)

/-- The hop-level classification computed per node in `applyStyles`
(`0` = active, `1..maxHops` = hop, `maxHops+1` = connected beyond, `-1` = disconnected). -/
def computeHopLevel (maxHops : Nat) (activeNodeId : Option String)
    (neighborsByHop : List (Nat × List String)) (allConnected : List String)
    (nodeId : String) : Int :=
  if jsTruthyId activeNodeId then
    if activeNodeId = some nodeId then 0
    else
      match hopOf neighborsByHop maxHops nodeId with
      | some h => (h : Int)
      | none => if nodeId ∈ allConnected then (maxHops : Int) + 1 else -1
  else -1

structure NodeStyle where
  tint : Option Int
  alpha : Rat
  shape : NodeShape
  size : Rat
deriving DecidableEq

/-- The `color`/`alpha`(/active `size`) branch chain of `applyStyles`,
as a function of the rule color (`ruleStyle?.color`). -/
def nodeColorAlphaSize (settings : GraphStyleSettings) (ruleColor : Option String)
    (activeNodeId : Option String) (hopLevel : Int) (nodeId : String) :
    Option String × Rat × Option Rat :=
  if jsTruthyId activeNodeId = true ∧ activeNodeId = some nodeId then
    (some settings.selectedNodeColor, 1, some settings.activeNodeSize)
  else if 0 < hopLevel ∧ hopLevel ≤ (settings.maxHops : Int) then
    (jsOrStr ruleColor
      (jsOrStr (settings.hopColors.get? (hopLevel - 1).toNat) (settings.hopColors.get? 0)),
      1, none)
  else if jsTruthyId activeNodeId = false then
    (jsOrStr ruleColor (settings.hopColors.get? 0), 1, none)
  else if hopLevel = -1 then
    (jsOrStr ruleColor (some "#888888"), settings.disconnectedOpacity, none)
  else
    (jsOrStr ruleColor (some "#888888"), 0.5, none)

/-- The per-node style computation of `applyStyles` (color/alpha/shape/size branch
chain plus the final `parseColor` call).  The `Except` error models the `TypeError`
thrown when `parseColor` is applied to an `undefined` color. -/
def computeNodeStyle (settings : GraphStyleSettings) (vault : Vault)
    (activeNodeId : Option String) (hopLevel : Int) (nodeId : String) :
    Except String NodeStyle :=
  let ruleStyle := getStyleFromRules vault settings.rules nodeId
  let cas := nodeColorAlphaSize settings (ruleStyle.bind (fun r => r.color))
    activeNodeId hopLevel nodeId
  let shape := (ruleStyle.bind (fun r => r.shape)).getD settings.defaultNodeShape
  let size : Rat :=
    match cas.2.2 with
    | some sz => sz
    | none => jsOrRat (ruleStyle.bind (fun r => r.size)) settings.defaultNodeSize
  match cas.1 with
  | some c => .ok ⟨parseColor c, cas.2.1, shape, size⟩
  | none => .error "TypeError: Cannot read properties of undefined"

/-! ### GraphStyler: edge style resolution (`applyEdgeStyles`) -/

structure EdgeStyle where
  tint : Option Int
  alpha : Rat
  width : Rat
deriving DecidableEq

/-- `isInRange`: endpoint appears in one of the hop sets `1..maxHops`. -/
def isInRange (maxHops : Nat) (neighborsByHop : List (Nat × List String))
    (nodeId : Option String) : Bool :=
  match nodeId with
  | none => false
  | some x =>
      if jsFalsy x then false
      else (List.range maxHops).any (fun i =>
        match mapGet neighborsByHop (i + 1) with
        | some s => x ∈ s
        | none => false)

/-- `activeNodeId ? endId === activeNodeId : false`. -/
def endpointActive (activeNodeId endId : Option String) : Bool :=
  if jsTruthyId activeNodeId then endId == activeNodeId else false

/-- `this.nodeHopLevels.get(id || '') ?? -1`. -/
def hopLookup (nodeHopLevels : List (String × Int)) (nodeId : Option String) : Int :=
  (mapGet nodeHopLevels (nodeId.getD "")).getD (-1)

/-- `hop > 0 ? hop : Infinity` (`none` models `Infinity`). -/
def posHop (h : Int) : Option Nat := if 0 < h then some h.toNat else none

/-- `Math.min` over the two (possibly infinite) endpoint hops. -/
def minHopOf (a b : Option Nat) : Option Nat :=
  match a, b with
  | some m, some n => some (min m n)
  | some m, none => some m
  | none, x => x

/-- The per-edge style computation of `applyEdgeStyles`, all three color modes. -/
def computeEdgeStyle (settings : GraphStyleSettings) (activeNodeId : Option String)
    (nodeStyles : List (String × NodeStyle)) (nodeHopLevels : List (String × Int))
    (neighborsByHop : List (Nat × List String)) (sourceId targetId : Option String) :
    EdgeStyle :=
  let sourceIsActive := endpointActive activeNodeId sourceId
  let targetIsActive := endpointActive activeNodeId targetId
  let sourceInRange := isInRange settings.maxHops neighborsByHop sourceId
  let targetInRange := isInRange settings.maxHops neighborsByHop targetId
  match settings.edgeColorMode with
  | .inherit =>
      let sourceStyle := mapGet nodeStyles (sourceId.getD "")
      let tint :=
        match sourceStyle with
        | some st => st.tint
        | none => parseColor "#888888"
      if sourceIsActive || targetIsActive then ⟨tint, 1, settings.activeEdgeWidth⟩
      else if sourceInRange && targetInRange then
        ⟨tint, min ((sourceStyle.map (fun st => st.alpha)).getD 0.8) 0.8,
          settings.defaultEdgeWidth⟩
      else ⟨tint, settings.disconnectedOpacity, settings.disconnectedEdgeWidth⟩
  | .byHop =>
      let sourceHop := hopLookup nodeHopLevels sourceId
      let targetHop := hopLookup nodeHopLevels targetId
      if sourceIsActive || targetIsActive then
        ⟨parseColor (jsOrStrD (settings.hopEdgeColors.get? 0) settings.edgeColor), 1,
          settings.activeEdgeWidth⟩
      else
        match minHopOf (posHop sourceHop) (posHop targetHop) with
        | some m =>
            if m ≤ settings.maxHops then
              ⟨parseColor (jsOrStrD (settings.hopEdgeColors.get? (m - 1)) settings.edgeColor),
                0.7, settings.defaultEdgeWidth⟩
            else
              ⟨parseColor settings.edgeColor, 0.4, settings.disconnectedEdgeWidth⟩
        | none =>
            ⟨parseColor settings.edgeColor, settings.disconnectedOpacity,
              settings.disconnectedEdgeWidth⟩
  | .single =>
      if sourceIsActive || targetIsActive then
        ⟨parseColor settings.highlightedEdgeColor, 1, settings.activeEdgeWidth⟩
      else if sourceInRange && targetInRange then
        ⟨parseColor settings.edgeColor, 0.8, settings.defaultEdgeWidth⟩
      else
        ⟨parseColor settings.edgeColor, settings.disconnectedOpacity,
          settings.disconnectedEdgeWidth⟩

/-! ### Concrete instances used in witnesses and counterexamples -/

/-- The linear chain A–B–C–D as a symmetric adjacency structure. -/
def gW : AdjGraph :=
  [("A", ["B"]), ("B", ["A", "C"]), ("C", ["B", "D"]), ("D", ["C"])]

def vaultW : Vault := fun _ => none

def r0W : StyleRule :=
  { id := "r0", type := .folder, pattern := "P/", color := some "#112233",
    shape := none, size := none, enabled := true }

def r1W : StyleRule :=
  { id := "r1", type := .folder, pattern := "P/", color := some "#445566",
    shape := none, size := none, enabled := true }

/-- An enabled matching rule with no override fields at all. -/
def r2W : StyleRule :=
  { id := "r2", type := .folder, pattern := "P/", color := none,
    shape := none, size := none, enabled := true }

/-- A settings snapshot mirroring `DEFAULT_SETTINGS`. -/
def sW : GraphStyleSettings :=
  { maxHops := 3, selectedNodeColor := "#FF6B6B",
    hopColors := ["#4ECDC4", "#45B7D1", "#96CEB4", "#FFEAA7", "#DDA0DD"],
    disconnectedOpacity := 0.15, defaultNodeShape := .circle, defaultNodeSize := 1,
    activeNodeSize := 1.1, edgeColorMode := .single, edgeColor := "#888888",
    highlightedEdgeColor := "#4ECDC4",
    hopEdgeColors := ["#4ECDC4", "#45B7D1", "#96CEB4", "#FFEAA7", "#DDA0DD"],
    activeEdgeWidth := 2, defaultEdgeWidth := 1, disconnectedEdgeWidth := 0.5,
    rules := [] }

/-- Settings with an empty hop-color array (`maxHops` still positive). -/
def sEmptyHops : GraphStyleSettings := { sW with maxHops := 1, hopColors := [] }

/-- Settings in `by-hop` edge mode with the two-color palette of spec Scenario D. -/
def sScenD : GraphStyleSettings :=
  { sW with edgeColorMode := .byHop, hopEdgeColors := ["#111111", "#222222"] }

/-- Hop levels for Scenario D: `u` at hop 1, `v` at hop 2. -/
def hopLevelsD : List (String × Int) := [("a", 0), ("u", 1), ("v", 2)]

/-- An enabled matching rule whose color is a CSS color name (no `#`). -/
def rRedW : StyleRule :=
  { id := "r3", type := .folder, pattern := "P/", color := some "red",
    shape := none, size := none, enabled := true }

/-- Default settings with the single rule `rRedW`. -/
def sWRed : GraphStyleSettings := { sW with rules := [rRedW] }

/-- A one-node map input with a single forward link to an absent node `B`. -/
def inputW : NodesInput := .mapInput [("A", .node (.plainObject ["B"]) .noData)]

/-- An enabled matching rule carrying a color, a shape and a size. -/
def rBigW : StyleRule :=
  { id := "r4", type := .folder, pattern := "P/", color := some "#112233",
    shape := some .square, size := some 2, enabled := true }

/-- Default settings with the single rule `rBigW`. -/
def sWBig : GraphStyleSettings := { sW with rules := [rBigW] }

/-! ### Lemmas about the BFS building blocks -/

theorem unvisitedCount_mono (cands v v' : List String) (h : ∀ x, x ∈ v → x ∈ v') :
    unvisitedCount cands v' ≤ unvisitedCount cands v := by
  unfold unvisitedCount
  induction cands with
  | nil => exact Nat.le_refl _
  | cons c cs ih =>
      simp only [List.filter_cons]
      by_cases hc : c ∈ v'
      · have hc2 : (decide (c ∉ v')) = false := by simp [hc]
        rw [hc2]
        by_cases hc3 : c ∈ v
        · have : (decide (c ∉ v)) = false := by simp [hc3]
          rw [this]
          exact ih
        · have : (decide (c ∉ v)) = true := by simp [hc3]
          rw [this]
          simp only [List.length_cons]
          exact Nat.le_succ_of_le ih
      · have hc3 : c ∉ v := fun hx => hc (h c hx)
        have h1 : (decide (c ∉ v')) = true := by simp [hc]
        have h2 : (decide (c ∉ v)) = true := by simp [hc3]
        rw [h1, h2]
        simp only [List.length_cons]
        exact Nat.succ_le_succ ih

theorem unvisitedCount_strict (cands v : List String) (n : String)
    (hn : n ∈ cands) (hnv : n ∉ v) :
    unvisitedCount cands (v ++ [n]) < unvisitedCount cands v := by
  unfold unvisitedCount
  induction cands with
  | nil => cases hn
  | cons c cs ih =>
      simp only [List.filter_cons]
      rcases List.mem_cons.mp hn with rfl | hn2
      · have h1 : (decide (n ∉ v ++ [n])) = false := by simp
        have h2 : (decide (n ∉ v)) = true := by simp [hnv]
        rw [h1, h2]
        simp only [List.length_cons]
        exact Nat.lt_succ_of_le (unvisitedCount_mono cs v (v ++ [n])
          (fun x hx => List.mem_append_left _ hx))
      · by_cases hc : c ∈ v
        · have h1 : (decide (c ∉ v ++ [n])) = false := by simp [hc]
          have h2 : (decide (c ∉ v)) = false := by simp [hc]
          rw [h1, h2]
          exact ih hn2
        · by_cases hcn : c = n
          · subst hcn
            have h1 : (decide (c ∉ v ++ [c])) = false := by simp
            have h2 : (decide (c ∉ v)) = true := by simp [hc]
            rw [h1, h2]
            simp only [List.length_cons]
            exact Nat.lt_succ_of_le (unvisitedCount_mono cs v (v ++ [c])
              (fun x hx => List.mem_append_left _ hx))
          · have h1 : (decide (c ∉ v ++ [n])) = true := by
              simp [hc, hcn]
            have h2 : (decide (c ∉ v)) = true := by simp [hc]
            rw [h1, h2]
            simp only [List.length_cons]
            exact Nat.succ_lt_succ (ih hn2)

theorem freshOnes_sub : ∀ (ns v : List String) (x : String),
    x ∈ freshOnes v ns → x ∈ ns ∧ x ∉ v := by
  intro ns
  induction ns with
  | nil => intro v x hx; cases hx
  | cons n rest ih =>
      intro v x hx
      unfold freshOnes at hx
      by_cases hn : n ∈ v
      · rw [if_pos hn] at hx
        obtain ⟨h1, h2⟩ := ih v x hx
        exact ⟨List.mem_cons_of_mem _ h1, h2⟩
      · rw [if_neg hn] at hx
        rcases List.mem_cons.mp hx with rfl | hx2
        · exact ⟨List.mem_cons_self _ _, hn⟩
        · obtain ⟨h1, h2⟩ := ih (v ++ [n]) x hx2
          exact ⟨List.mem_cons_of_mem _ h1,
            fun hv => h2 (List.mem_append_left _ hv)⟩

theorem mem_visited_after : ∀ (ns v : List String) (x : String),
    x ∈ ns → x ∈ v ++ freshOnes v ns := by
  intro ns
  induction ns with
  | nil => intro v x hx; cases hx
  | cons n rest ih =>
      intro v x hx
      unfold freshOnes
      by_cases hn : n ∈ v
      · rw [if_pos hn]
        rcases List.mem_cons.mp hx with rfl | hx2
        · exact List.mem_append_left _ hn
        · exact ih v x hx2
      · rw [if_neg hn]
        rcases List.mem_cons.mp hx with rfl | hx2
        · exact List.mem_append_right _ (List.mem_cons_self _ _)
        · have := ih (v ++ [n]) x hx2
          rwa [List.append_assoc, List.singleton_append] at this

theorem freshOnes_measure (cands : List String) : ∀ (ns v : List String),
    (∀ n, n ∈ ns → n ∈ cands) →
    (freshOnes v ns).length + unvisitedCount cands (v ++ freshOnes v ns) ≤
      unvisitedCount cands v := by
  intro ns
  induction ns with
  | nil =>
      intro v _
      simp [freshOnes, unvisitedCount]
  | cons n rest ih =>
      intro v hsub
      unfold freshOnes
      by_cases hn : n ∈ v
      · rw [if_pos hn]
        exact ih v (fun x hx => hsub x (List.mem_cons_of_mem _ hx))
      · rw [if_neg hn]
        simp only [List.length_cons]
        have h1 := ih (v ++ [n]) (fun x hx => hsub x (List.mem_cons_of_mem _ hx))
        have h2 := unvisitedCount_strict cands v n (hsub n (List.mem_cons_self _ _)) hn
        have h3 : v ++ n :: freshOnes (v ++ [n]) rest =
            (v ++ [n]) ++ freshOnes (v ++ [n]) rest := by
          rw [List.append_assoc, List.singleton_append]
        rw [h3]
        omega

theorem mapGet_mem {κ α : Type} [DecidableEq κ] {m : List (κ × α)} {k : κ} {v : α}
    (h : mapGet m k = some v) : (k, v) ∈ m := by
  induction m with
  | nil => cases h
  | cons p rest ih =>
      unfold mapGet at h
      by_cases hp : p.1 = k
      · rw [if_pos hp] at h
        injection h with h2
        have : p = (k, v) := by
          obtain ⟨p1, p2⟩ := p
          simp only at hp h2
          rw [hp, h2]
        rw [← this]
        exact List.mem_cons_self _ _
      · rw [if_neg hp] at h
        exact List.mem_cons_of_mem _ (ih h)

theorem adj_sub_allNeighborIds (g : AdjGraph) (x y : String) (h : y ∈ adj g x) :
    y ∈ allNeighborIds g := by
  unfold adj at h
  cases hm : mapGet g x with
  | none => rw [hm] at h; cases h
  | some l =>
      rw [hm] at h
      simp only [Option.getD_some] at h
      have hmem := mapGet_mem hm
      unfold allNeighborIds
      rw [List.mem_flatten]
      exact ⟨l, List.mem_map.mpr ⟨(x, l), hmem, rfl⟩, h⟩

theorem enqueueAll_eq : ∀ (ns v q : List String),
    enqueueAll v q ns = (v ++ freshOnes v ns, q ++ freshOnes v ns) := by
  intro ns
  induction ns with
  | nil => intro v q; simp [enqueueAll, freshOnes]
  | cons n rest ih =>
      intro v q
      unfold enqueueAll freshOnes
      by_cases hn : n ∈ v
      · rw [if_pos hn, if_pos hn, ih]
      · rw [if_neg hn, if_neg hn, ih]
        rw [List.append_assoc, List.singleton_append,
          List.append_assoc, List.singleton_append]

theorem enqueueNeighbors_eq : ∀ (ns v : List String) (q : List (String × Nat)) (d : Nat),
    enqueueNeighbors v q d ns =
      (v ++ freshOnes v ns, q ++ (freshOnes v ns).map (fun n => (n, d + 1))) := by
  intro ns
  induction ns with
  | nil => intro v q d; simp [enqueueNeighbors, freshOnes]
  | cons n rest ih =>
      intro v q d
      unfold enqueueNeighbors freshOnes
      by_cases hn : n ∈ v
      · rw [if_pos hn, if_pos hn, ih]
      · rw [if_neg hn, if_neg hn, ih]
        rw [List.append_assoc, List.singleton_append, List.map_cons,
          List.append_assoc, List.singleton_append]

/-! ### Lemmas about shortest distances -/

theorem reach_step {g : AdjGraph} {s x y : String}
    (hr : ReachableFrom g s x) (hxy : adjMem g x y) : ReachableFrom g s y := by
  obtain ⟨n, hp⟩ := hr
  exact ⟨n + 1, .step hp hxy⟩

theorem reach_closed {g : AdjGraph} {s : String} {v : List String} (hs : s ∈ v)
    (hcl : ∀ x, x ∈ v → ∀ y, adjMem g x y → y ∈ v) :
    ∀ x, ReachableFrom g s x → x ∈ v := by
  rintro x ⟨n, hp⟩
  induction hp with
  | refl => exact hs
  | step hp2 hadj ih => exact hcl _ ih _ hadj

theorem isShortest_zero {g : AdjGraph} {s x : String} :
    IsShortest g s x 0 ↔ x = s := by
  constructor
  · rintro ⟨hp, -⟩
    cases hp
    rfl
  · rintro rfl
    exact ⟨.refl, fun k _ => Nat.zero_le k⟩

theorem isShortest_unique {g : AdjGraph} {s x : String} {a b : Nat}
    (ha : IsShortest g s x a) (hb : IsShortest g s x b) : a = b :=
  Nat.le_antisymm (ha.2 b hb.1) (hb.2 a ha.1)

theorem exists_isShortest_of_path {g : AdjGraph} {s x : String} {n : Nat}
    (hp : PathTo g s x n) : ∃ k, k ≤ n ∧ IsShortest g s x k := by
  classical
  have hex : ∃ k, PathTo g s x k := ⟨n, hp⟩
  refine ⟨Nat.find hex, Nat.find_min' hex hp, Nat.find_spec hex, ?_⟩
  exact fun k hk => Nat.find_min' hex hk

theorem isShortest_decompose {g : AdjGraph} {s x : String} {n : Nat}
    (h : IsShortest g s x (n + 1)) : ∃ y, adjMem g y x ∧ IsShortest g s y n := by
  obtain ⟨hp, hmin⟩ := h
  cases hp with
  | @step z _ _ hp2 hadj =>
      refine ⟨z, hadj, hp2, ?_⟩
      intro k hk
      have := hmin (k + 1) (.step hk hadj)
      omega

theorem isShortest_succ_of_unvisited {g : AdjGraph} {s : String} {v : List String}
    {x y : String} {d : Nat}
    (hx : IsShortest g s x d) (hadj : adjMem g x y) (hyv : y ∉ v)
    (hfront : ∀ z k, IsShortest g s z k → k ≤ d → z ∈ v) :
    IsShortest g s y (d + 1) := by
  refine ⟨.step hx.1 hadj, ?_⟩
  intro k hk
  by_contra hlt
  push_neg at hlt
  obtain ⟨k2, hk2, hks⟩ := exists_isShortest_of_path hk
  have hk2d : k2 ≤ d := by omega
  exact hyv (hfront y k2 hks hk2d)

/-! ### Basic lemmas about the `Map`/`Set` primitives -/

theorem mapGet_mapSet {κ α : Type} [DecidableEq κ] (m : List (κ × α)) (k k' : κ) (v : α) :
    mapGet (mapSet m k v) k' = if k = k' then some v else mapGet m k' := by
  induction m with
  | nil => by_cases h : k = k' <;> simp [mapSet, mapGet, h]
  | cons p rest ih =>
      simp only [mapSet]
      by_cases h : p.1 = k
      · rw [if_pos h]
        by_cases h2 : k = k' <;> simp [mapGet, h, h2]
      · rw [if_neg h]
        by_cases h2 : p.1 = k'
        · have h3 : ¬ k = k' := fun he => h (by rw [h2, he])
          simp [mapGet, h2, h3]
        · simp [mapGet, h2, ih]

theorem hasKey_mapSet {κ α : Type} [DecidableEq κ] (m : List (κ × α)) (k k' : κ) (v : α) :
    hasKey (mapSet m k v) k' = (if k = k' then true else hasKey m k') := by
  by_cases h : k = k' <;> simp [hasKey, mapGet_mapSet, h]

theorem mem_setAdd {s : List String} {x y : String} :
    y ∈ setAdd s x ↔ y ∈ s ∨ y = x := by
  by_cases h : x ∈ s
  · simp only [setAdd, if_pos h]
    constructor
    · exact fun hy => Or.inl hy
    · rintro (hy | rfl) <;> assumption
  · simp [setAdd, if_neg h]

theorem mapGet_isSome_of_eq {κ α : Type} [DecidableEq κ] {m : List (κ × α)} {k : κ} {v : α}
    (h : mapGet m k = some v) : hasKey m k = true := by
  simp [hasKey, h]

/-! ### C6: absent source yields empty results -/

theorem mapGet_append {κ α : Type} [DecidableEq κ] (m1 m2 : List (κ × α)) (k : κ) :
    mapGet (m1 ++ m2) k =
      match mapGet m1 k with
      | some v => some v
      | none => mapGet m2 k := by
  induction m1 with
  | nil => simp [mapGet]
  | cons p rest ih =>
      by_cases h : p.1 = k <;> simp [mapGet, h, ih]

theorem mapGet_initHops (m hp : Nat) :
    mapGet (initHops m) hp = if 1 ≤ hp ∧ hp ≤ m then some [] else none := by
  induction m with
  | zero =>
      simp only [initHops, List.range_zero, List.map_nil, mapGet]
      split
      · next hc => omega
      · rfl
  | succ n ih =>
      simp only [initHops] at ih ⊢
      rw [List.range_succ, List.map_append, mapGet_append, ih]
      by_cases h1 : 1 ≤ hp ∧ hp ≤ n
      · have h2 : 1 ≤ hp ∧ hp ≤ n + 1 := ⟨h1.1, Nat.le_succ_of_le h1.2⟩
        simp [h1, h2]
      · rw [if_neg h1]
        simp only [List.map_cons, List.map_nil, mapGet]
        by_cases h2 : n + 1 = hp
        · have h3 : 1 ≤ hp ∧ hp ≤ n + 1 := by omega
          simp [h2, h3]
        · have h3 : ¬ (1 ≤ hp ∧ hp ≤ n + 1) := by omega
          simp [h2, h3]

/-- C6: if the source id is not a key of the adjacency structure,
`findNeighborsByHop` returns the initial classification in which every hop set
`1..maxHops` is empty (so no node is a member of any hop set), and
`getAllConnectedNodes` returns the empty set.  Neither operation can fail:
both are total functions. -/
theorem C6_absent_source (g : AdjGraph) (s : String) (m : Nat)
    (h : hasKey g s = false) :
    (∀ hp, 1 ≤ hp → hp ≤ m → mapGet (findNeighborsByHop g s m) hp = some []) ∧
    (∀ hp x, ¬ hopMem (findNeighborsByHop g s m) hp x) ∧
    getAllConnectedNodes g s = [] := by
  have hfind : findNeighborsByHop g s m = initHops m := by
    simp [findNeighborsByHop, h]
  have hconn : getAllConnectedNodes g s = [] := by
    simp [getAllConnectedNodes, h]
  refine ⟨?_, ?_, hconn⟩
  · intro hp h1 h2
    rw [hfind, mapGet_initHops]
    simp [h1, h2]
  · intro hp x hmem
    rw [hfind] at hmem
    obtain ⟨l, hl, hx⟩ := hmem
    rw [mapGet_initHops] at hl
    by_cases hc : 1 ≤ hp ∧ hp ≤ m
    · rw [if_pos hc] at hl
      cases hl
      simp at hx
    · rw [if_neg hc] at hl
      cases hl

/-! ### C3 / C9: rule resolution -/

theorem findRuleOverride_eq_find (vault : Vault) (nodeId : String) (rules : List StyleRule) :
    findRuleOverride vault nodeId rules =
      (rules.find? (fun r => r.enabled && ruleMatches vault nodeId r)).map
        (fun r => ⟨r.color, r.shape, r.size⟩) := by
  induction rules with
  | nil => rfl
  | cons r rest ih =>
      simp only [findRuleOverride]
      by_cases he : r.enabled = true
      · by_cases hm : ruleMatches vault nodeId r = true
        · simp [List.find?, he, hm]
        · simp only [he, Bool.not_true, if_neg]
          simp [List.find?, he, hm, ih]
      · have he2 : r.enabled = false := by revert he; cases r.enabled <;> simp
        simp [List.find?, he2, ih]

theorem getStyleFromRules_eq_find (vault : Vault) (nodeId : String) (rules : List StyleRule) :
    getStyleFromRules vault rules nodeId =
      (rules.find? (fun r => r.enabled && ruleMatches vault nodeId r)).map
        (fun r => ⟨r.color, r.shape, r.size⟩) := by
  cases rules with
  | nil => rfl
  | cons r rest => simp [getStyleFromRules, findRuleOverride_eq_find]

/-- C3: rule resolution walks the rule list in stored order, skips every
disabled rule, and returns the override fields of the first enabled rule whose
type predicate matches the node id: (1) it equals a first-match search over
enabled matching rules; (2) of two matching rules the first one's override is
returned; (3) any returned override comes from some enabled matching rule in
the list (so a disabled rule is never returned); (4) a disabled head rule is
skipped entirely. -/
theorem C3_rule_precedence (vault : Vault) (nodeId : String) :
    (∀ rules : List StyleRule,
      getStyleFromRules vault rules nodeId =
        (rules.find? (fun r => r.enabled && ruleMatches vault nodeId r)).map
          (fun r => ⟨r.color, r.shape, r.size⟩)) ∧
    (∀ (r0 r1 : StyleRule) (post : List StyleRule),
      r0.enabled = true → ruleMatches vault nodeId r0 = true →
      ruleMatches vault nodeId r1 = true →
      getStyleFromRules vault (r0 :: r1 :: post) nodeId =
        some ⟨r0.color, r0.shape, r0.size⟩) ∧
    (∀ (rules : List StyleRule) (o : RuleOverride),
      getStyleFromRules vault rules nodeId = some o →
      ∃ r, r ∈ rules ∧ r.enabled = true ∧ ruleMatches vault nodeId r = true ∧
        o = ⟨r.color, r.shape, r.size⟩) ∧
    (∀ (r : StyleRule) (rules : List StyleRule), r.enabled = false →
      getStyleFromRules vault (r :: rules) nodeId = getStyleFromRules vault rules nodeId) := by
  refine ⟨getStyleFromRules_eq_find vault nodeId, ?_, ?_, ?_⟩
  · intro r0 r1 post h0 hm0 _
    simp [getStyleFromRules, findRuleOverride, h0, hm0]
  · intro rules o hsome
    rw [getStyleFromRules_eq_find] at hsome
    cases hfind : rules.find? (fun r => r.enabled && ruleMatches vault nodeId r) with
    | none => rw [hfind] at hsome; cases hsome
    | some r =>
        rw [hfind] at hsome
        have hmem := List.mem_of_find?_eq_some hfind
        have hp := List.find?_some hfind
        simp only [Bool.and_eq_true] at hp
        refine ⟨r, hmem, hp.1, hp.2, ?_⟩
        simpa using hsome.symm
  · intro r rules hdis
    rw [getStyleFromRules_eq_find, getStyleFromRules_eq_find]
    simp [List.find?, hdis]

theorem C3_rule_precedence_witness :
    r0W.enabled = true ∧ ruleMatches vaultW "P/x.md" r0W = true ∧
    ruleMatches vaultW "P/x.md" r1W = true ∧
    getStyleFromRules vaultW [r0W, r1W] "P/x.md" = some ⟨r0W.color, r0W.shape, r0W.size⟩ :=
  ⟨by decide, by decide, by decide,
    (C3_rule_precedence vaultW "P/x.md").2.1 r0W r1W [] (by decide) (by decide) (by decide)⟩

/-- C9: when the first enabled matching rule carries no color, shape or size,
rule resolution still returns that rule's (empty) override and stops — later
rules are never consulted — so the node style computation coincides with the
no-rules computation, i.e. falls back to the configured defaults. -/
theorem C9_empty_override_wins (vault : Vault) (settings : GraphStyleSettings)
    (R : StyleRule) (rest : List StyleRule) (activeNodeId : Option String)
    (hopLevel : Int) (nodeId : String)
    (hen : R.enabled = true) (hm : ruleMatches vault nodeId R = true)
    (hc : R.color = none) (hs : R.shape = none) (hz : R.size = none) :
    getStyleFromRules vault (R :: rest) nodeId = some ⟨none, none, none⟩ ∧
    computeNodeStyle { settings with rules := R :: rest } vault activeNodeId hopLevel nodeId =
      computeNodeStyle { settings with rules := ([] : List StyleRule) } vault activeNodeId
        hopLevel nodeId := by
  have h1 : getStyleFromRules vault (R :: rest) nodeId = some ⟨none, none, none⟩ := by
    simp [getStyleFromRules, findRuleOverride, hen, hm, hc, hs, hz]
  have h0 : getStyleFromRules vault ([] : List StyleRule) nodeId = none := rfl
  refine ⟨h1, ?_⟩
  simp [computeNodeStyle, nodeColorAlphaSize, h1, h0, jsOrRat]

theorem C9_empty_override_wins_witness :
    r2W.enabled = true ∧ ruleMatches vaultW "P/x.md" r2W = true ∧
    r2W.color = none ∧ r2W.shape = none ∧ r2W.size = none ∧
    (getStyleFromRules vaultW [r2W, r1W] "P/x.md" = some ⟨none, none, none⟩ ∧
      computeNodeStyle { sW with rules := [r2W, r1W] } vaultW (some "a") 1 "P/x.md" =
        computeNodeStyle { sW with rules := ([] : List StyleRule) } vaultW (some "a") 1 "P/x.md") :=
  ⟨by decide, by decide, by decide, by decide, by decide,
    C9_empty_override_wins vaultW sW r2W [r1W] (some "a") 1 "P/x.md"
      (by decide) (by decide) (by decide) (by decide) (by decide)⟩

/-! ### C10: `parseColor` -/

theorem isHexDigit_not_ws {c : Char} (h : isHexDigit c = true) : c.isWhitespace = false := by
  cases hw : c.isWhitespace with
  | false => rfl
  | true =>
      exfalso
      have hw2 : ((c = ' ' ∨ c = '\t') ∨ c = '\x0d') ∨ c = '\n' := by
        simpa [Char.isWhitespace, Bool.or_eq_true, decide_eq_true_eq] using hw
      rcases hw2 with ((rfl | rfl) | rfl) | rfl <;> exact absurd h (by decide)

theorem isHexDigit_ne {c : Char} (h : isHexDigit c = true) :
    c ≠ '-' ∧ c ≠ '+' ∧ c ≠ 'x' ∧ c ≠ 'X' := by
  refine ⟨?_, ?_, ?_, ?_⟩ <;> rintro rfl <;> exact absurd h (by decide)

theorem hexRunVal_eq_foldl (cs : List Char) (acc : Nat)
    (h : ∀ c ∈ cs, isHexDigit c = true) :
    hexRunVal acc cs = cs.foldl (fun a c => 16 * a + hexDigitVal c) acc := by
  induction cs generalizing acc with
  | nil => rfl
  | cons c rest ih =>
      have hc : isHexDigit c = true := h c (List.mem_cons_self c rest)
      simp only [hexRunVal, if_pos hc, List.foldl_cons]
      exact ih _ (fun d hd => h d (List.mem_cons_of_mem c hd))

theorem jsParseIntHex_all_hex (s : String) (hne : s.toList ≠ [])
    (h : ∀ c ∈ s.toList, isHexDigit c = true) :
    jsParseIntHex s = some ((hexValueSpec s : Nat) : Int) := by
  obtain ⟨c, rest, hcs⟩ : ∃ c rest, s.toList = c :: rest := by
    cases hcl : s.toList with
    | nil => exact absurd hcl hne
    | cons c rest => exact ⟨c, rest, rfl⟩
  have hc : isHexDigit c = true := h c (hcs ▸ List.mem_cons_self c rest)
  have hdrop : s.toList.dropWhile Char.isWhitespace = c :: rest := by
    rw [hcs, List.dropWhile_cons, isHexDigit_not_ws hc]
    simp
  have hbody : hexBody (c :: rest) = some (hexRunVal (hexDigitVal c) rest) := by
    cases rest with
    | nil => simp [hexBody, hexRun, hc]
    | cons x rest2 =>
        have hx : isHexDigit x = true := by
          refine h x ?_
          rw [hcs]; exact List.mem_cons_of_mem _ (List.mem_cons_self _ _)
        have hnotstrip : ¬ (c = '0' ∧ (x = 'x' ∨ x = 'X')) := by
          rintro ⟨-, hx2 | hx2⟩
          · exact (isHexDigit_ne hx).2.2.1 hx2
          · exact (isHexDigit_ne hx).2.2.2 hx2
        simp [hexBody, hexRun, hc, if_neg hnotstrip]
  have hrun : hexRunVal (hexDigitVal c) rest =
      (c :: rest).foldl (fun a d => 16 * a + hexDigitVal d) 0 := by
    rw [List.foldl_cons]
    have h16 : 16 * 0 + hexDigitVal c = hexDigitVal c := by omega
    rw [h16]
    refine hexRunVal_eq_foldl rest (hexDigitVal c) (fun d hd => ?_)
    refine h d ?_
    rw [hcs]; exact List.mem_cons_of_mem _ hd
  have hnm : ¬ c = '-' := (isHexDigit_ne hc).1
  have hnp : ¬ c = '+' := (isHexDigit_ne hc).2.1
  have hdata : s.data = c :: rest := hcs
  simp only [jsParseIntHex, hdrop, if_neg hnm, if_neg hnp, hbody, Option.map_some]
  rw [hrun]
  simp [hexValueSpec, String.toList, hdata]

/-- The hop-range branch of the node style computation, when the matching rule
supplies a truthy color. -/
theorem computeNodeStyle_hop_rule (settings : GraphStyleSettings) (vault : Vault)
    (act : Option String) (hopLevel : Int) (nodeId : String) (c : String)
    (hact : ¬ (jsTruthyId act = true ∧ act = some nodeId))
    (h0 : 0 < hopLevel) (hm : hopLevel ≤ (settings.maxHops : Int))
    (hc : (getStyleFromRules vault settings.rules nodeId).bind (fun r => r.color) = some c)
    (hfal : jsFalsy c = false) :
    computeNodeStyle settings vault act hopLevel nodeId =
      .ok ⟨parseColor c, 1,
        ((getStyleFromRules vault settings.rules nodeId).bind
          (fun r => r.shape)).getD settings.defaultNodeShape,
        jsOrRat ((getStyleFromRules vault settings.rules nodeId).bind
          (fun r => r.size)) settings.defaultNodeSize⟩ := by
  simp [computeNodeStyle, nodeColorAlphaSize, hc, hact, h0, hm, hfal, jsOrStr]

/-- The active-node branch of the node style computation. -/
theorem computeNodeStyle_active (settings : GraphStyleSettings) (vault : Vault)
    (a : String) (hopLevel : Int) (ha : jsFalsy a = false) :
    computeNodeStyle settings vault (some a) hopLevel a =
      .ok ⟨parseColor settings.selectedNodeColor, 1,
        ((getStyleFromRules vault settings.rules a).bind
          (fun r => r.shape)).getD settings.defaultNodeShape,
        settings.activeNodeSize⟩ := by
  simp [computeNodeStyle, nodeColorAlphaSize, jsTruthyId, ha]

/-- C10: `parseColor` maps every string beginning with `#` to JS
`parseInt(remainder, 16)` — for a well-formed hexadecimal remainder that is
exactly its hexadecimal value — and maps every string not beginning with `#`
to `0xFFFFFF` (white); consequently a hop-range node whose matching rule color
does not start with `#` resolves to a white tint. -/
theorem C10_parseColor :
    (∀ s : String, jsStartsWith s "#" = false → parseColor s = some 0xFFFFFF) ∧
    (∀ s : String, jsStartsWith s "#" = true → parseColor s = jsParseIntHex (jsDrop s 1)) ∧
    (∀ s : String, s.toList ≠ [] → (∀ c ∈ s.toList, isHexDigit c = true) →
      jsParseIntHex s = some ((hexValueSpec s : Nat) : Int)) ∧
    (∀ (settings : GraphStyleSettings) (vault : Vault) (act : Option String)
        (hopLevel : Int) (nodeId : String) (c : String),
      (getStyleFromRules vault settings.rules nodeId).bind (fun r => r.color) = some c →
      jsStartsWith c "#" = false → jsFalsy c = false →
      0 < hopLevel → hopLevel ≤ (settings.maxHops : Int) →
      ¬ (jsTruthyId act = true ∧ act = some nodeId) →
      ∃ st, computeNodeStyle settings vault act hopLevel nodeId = .ok st ∧
        st.tint = some 0xFFFFFF) := by
  have h1 : ∀ s : String, jsStartsWith s "#" = false → parseColor s = some 0xFFFFFF := by
    intro s hs; simp [parseColor, hs]
  refine ⟨h1, ?_, jsParseIntHex_all_hex, ?_⟩
  · intro s hs; simp [parseColor, hs]
  · intro settings vault act hopLevel nodeId c hc hhash hfal h0 hm hact
    refine ⟨_, computeNodeStyle_hop_rule settings vault act hopLevel nodeId c
      hact h0 hm hc hfal, ?_⟩
    simp [h1 c hhash]

theorem C10_parseColor_witness :
    ((getStyleFromRules vaultW sWRed.rules "P/x.md").bind (fun r => r.color) = some "red" ∧
      jsStartsWith "red" "#" = false ∧ jsFalsy "red" = false ∧
      ¬ (jsTruthyId (some "a") = true ∧ (some "a" : Option String) = some "P/x.md")) ∧
    (∃ st, computeNodeStyle sWRed vaultW (some "a") 1 "P/x.md" = .ok st ∧
      st.tint = some 0xFFFFFF) :=
  ⟨⟨by decide, by decide, by decide, by decide⟩,
    C10_parseColor.2.2.2 sWRed vaultW (some "a") 1 "P/x.md" "red"
      (by decide) (by decide) (by decide) (by decide) (by decide) (by decide)⟩

/-! ### C2: active-node precedence -/

/-- C2: (1) when the active node is known (a truthy id), the active node itself
always receives the configured active color, opacity 1 and the configured
active node size, whatever the rule list contains; (2) a non-active node whose
hop level lies in `1..maxHops` and whose first matching rule carries a (truthy)
color receives that rule color (overriding the per-hop palette) at opacity 1. -/
theorem C2_active_node_precedence :
    (∀ (settings : GraphStyleSettings) (vault : Vault) (a : String) (hopLevel : Int),
      jsFalsy a = false →
      ∃ shp, computeNodeStyle settings vault (some a) hopLevel a =
        .ok ⟨parseColor settings.selectedNodeColor, 1, shp, settings.activeNodeSize⟩) ∧
    (∀ (settings : GraphStyleSettings) (vault : Vault) (a nodeId : String)
        (hopLevel : Int) (c : String),
      a ≠ nodeId → 0 < hopLevel → hopLevel ≤ (settings.maxHops : Int) →
      (getStyleFromRules vault settings.rules nodeId).bind (fun r => r.color) = some c →
      jsFalsy c = false →
      ∃ st, computeNodeStyle settings vault (some a) hopLevel nodeId = .ok st ∧
        st.tint = parseColor c ∧ st.alpha = 1) := by
  constructor
  · intro settings vault a hopLevel ha
    exact ⟨_, computeNodeStyle_active settings vault a hopLevel ha⟩
  · intro settings vault a nodeId hopLevel c hne h0 hm hc hfal
    have hact : ¬ (jsTruthyId (some a) = true ∧ (some a : Option String) = some nodeId) := by
      rintro ⟨-, he⟩
      exact hne (by injection he)
    exact ⟨_, computeNodeStyle_hop_rule settings vault (some a) hopLevel nodeId c
      hact h0 hm hc hfal, rfl, rfl⟩

/-- A rule carrying color, shape and size, matching everything under `P/`. -/
theorem C2_active_node_precedence_witness :
    (jsFalsy "P/x.md" = false ∧
      ∃ shp, computeNodeStyle sWBig vaultW (some "P/x.md") 1 "P/x.md" =
        .ok ⟨parseColor sWBig.selectedNodeColor, 1, shp, sWBig.activeNodeSize⟩) ∧
    (("Other.md" : String) ≠ "P/x.md" ∧
      (getStyleFromRules vaultW sWBig.rules "P/x.md").bind (fun r => r.color) = some "#112233" ∧
      ∃ st, computeNodeStyle sWBig vaultW (some "Other.md") 1 "P/x.md" = .ok st ∧
        st.tint = parseColor "#112233" ∧ st.alpha = 1) :=
  ⟨⟨by decide, C2_active_node_precedence.1 sWBig vaultW "P/x.md" 1 (by decide)⟩,
    ⟨by decide, by decide,
      C2_active_node_precedence.2 sWBig vaultW "Other.md" "P/x.md" 1 "#112233"
        (by decide) (by decide) (by decide) (by decide) (by decide)⟩⟩

/-! ### C4: by-hop edge styles -/

/-- C4: in `by-hop` edge mode with neither endpoint active, with `minHop` the
smaller of the endpoints' positive hop levels (non-positive treated as
infinite): a finite `minHop ≤ maxHops` yields the hop edge color at index
`minHop - 1` (when that entry exists and is truthy) at opacity 0.7 and default
width; a finite `minHop > maxHops` yields the base edge color at opacity 0.4
and disconnected width; two non-positive hop levels yield the base edge color
at the configured disconnected opacity and disconnected width.  In particular
spec Scenario D resolves to `#111111` at opacity 0.7. -/
theorem C4_by_hop_edges :
    (∀ (settings : GraphStyleSettings) (act : Option String)
        (nodeStyles : List (String × NodeStyle)) (hopMapL : List (String × Int))
        (nbh : List (Nat × List String)) (sourceId targetId : Option String)
        (m : Nat) (c : String),
      settings.edgeColorMode = .byHop →
      endpointActive act sourceId = false → endpointActive act targetId = false →
      minHopOf (posHop (hopLookup hopMapL sourceId))
        (posHop (hopLookup hopMapL targetId)) = some m →
      (m ≤ settings.maxHops → settings.hopEdgeColors.get? (m - 1) = some c →
        jsFalsy c = false →
        computeEdgeStyle settings act nodeStyles hopMapL nbh sourceId targetId =
          ⟨parseColor c, 0.7, settings.defaultEdgeWidth⟩) ∧
      (settings.maxHops < m →
        computeEdgeStyle settings act nodeStyles hopMapL nbh sourceId targetId =
          ⟨parseColor settings.edgeColor, 0.4, settings.disconnectedEdgeWidth⟩)) ∧
    (∀ (settings : GraphStyleSettings) (act : Option String)
        (nodeStyles : List (String × NodeStyle)) (hopMapL : List (String × Int))
        (nbh : List (Nat × List String)) (sourceId targetId : Option String),
      settings.edgeColorMode = .byHop →
      endpointActive act sourceId = false → endpointActive act targetId = false →
      hopLookup hopMapL sourceId ≤ 0 → hopLookup hopMapL targetId ≤ 0 →
      computeEdgeStyle settings act nodeStyles hopMapL nbh sourceId targetId =
        ⟨parseColor settings.edgeColor, settings.disconnectedOpacity,
          settings.disconnectedEdgeWidth⟩) ∧
    (computeEdgeStyle sScenD (some "a") [] hopLevelsD [] (some "u") (some "v") =
      ⟨some 0x111111, 0.7, sScenD.defaultEdgeWidth⟩) := by
  refine ⟨?_, ?_, by rfl⟩
  · intro settings act nodeStyles hopMapL nbh sourceId targetId m c hmode hsa hta hmin
    constructor
    · intro hle hget hfal
      have hget2 : settings.hopEdgeColors[m - 1]? = some c := by simpa using hget
      simp only [computeEdgeStyle, hmode, hsa, hta, Bool.or_self, Bool.false_eq_true,
        if_neg, hmin]
      simp [hle, hget2, jsOrStrD, hfal]
    · intro hgt
      simp only [computeEdgeStyle, hmode, hsa, hta, Bool.or_self, Bool.false_eq_true,
        if_neg, hmin]
      simp [Nat.not_le.mpr hgt]
  · intro settings act nodeStyles hopMapL nbh sourceId targetId hmode hsa hta hs ht
    have hmin : minHopOf (posHop (hopLookup hopMapL sourceId))
        (posHop (hopLookup hopMapL targetId)) = none := by
      simp [posHop, minHopOf, Int.not_lt.mpr hs, Int.not_lt.mpr ht]
    simp only [computeEdgeStyle, hmode, hsa, hta, Bool.or_self, Bool.false_eq_true,
      if_neg, hmin]
    simp

theorem C4_by_hop_edges_witness :
    (sScenD.edgeColorMode = .byHop ∧
      endpointActive (some "a") (some "u") = false ∧
      endpointActive (some "a") (some "v") = false ∧
      minHopOf (posHop (hopLookup hopLevelsD (some "u")))
        (posHop (hopLookup hopLevelsD (some "v"))) = some 1 ∧
      sScenD.hopEdgeColors.get? 0 = some "#111111") ∧
    computeEdgeStyle sScenD (some "a") [] hopLevelsD [] (some "u") (some "v") =
      ⟨parseColor "#111111", 0.7, sScenD.defaultEdgeWidth⟩ :=
  ⟨⟨by decide, by decide, by decide, by decide, by decide⟩,
    ((C4_by_hop_edges.1 sScenD (some "a") [] hopLevelsD [] (some "u") (some "v") 1 "#111111"
      (by decide) (by decide) (by decide) (by decide)).1 (by decide) (by decide) (by decide))⟩

/-! ### C7: totality of the resolvers (corrected) -/

theorem jsOrStr_isSome (a b : Option String) (hb : b.isSome = true) :
    (jsOrStr a b).isSome = true := by
  cases a with
  | none => simpa [jsOrStr]
  | some s =>
      by_cases h : jsFalsy s <;> simp [jsOrStr, h, hb]

theorem nodeColorAlphaSize_fst_isSome (settings : GraphStyleSettings)
    (ruleColor activeNodeId : Option String) (hopLevel : Int) (nodeId : String)
    (hne : settings.hopColors ≠ []) :
    (nodeColorAlphaSize settings ruleColor activeNodeId hopLevel nodeId).1.isSome = true := by
  obtain ⟨c0, l0, hl⟩ : ∃ c0 l0, settings.hopColors = c0 :: l0 := by
    cases hl : settings.hopColors with
    | nil => exact absurd hl hne
    | cons a l => exact ⟨a, l, rfl⟩
  have h0 : settings.hopColors[0]? = some c0 := by rw [hl]; simp
  unfold nodeColorAlphaSize
  split_ifs
  · rfl
  · exact jsOrStr_isSome _ _ (jsOrStr_isSome _ _ (by simp [h0]))
  · exact jsOrStr_isSome _ _ (by simp [h0])
  · exact jsOrStr_isSome _ _ (by simp)
  · exact jsOrStr_isSome _ _ (by simp)

/-- Whenever the branch chain produces a defined color, the node style
computation succeeds and its tint is `parseColor` of that color. -/
theorem computeNodeStyle_ok_of_color (settings : GraphStyleSettings) (vault : Vault)
    (act : Option String) (hopLevel : Int) (nodeId : String) (c : String)
    (hc : (nodeColorAlphaSize settings
      ((getStyleFromRules vault settings.rules nodeId).bind (fun r => r.color))
      act hopLevel nodeId).1 = some c) :
    ∃ st, computeNodeStyle settings vault act hopLevel nodeId = .ok st ∧
      st.tint = parseColor c := by
  cases hres : computeNodeStyle settings vault act hopLevel nodeId with
  | error e =>
      simp only [computeNodeStyle, hc] at hres
      exact Except.noConfusion hres
  | ok st =>
      refine ⟨st, rfl, ?_⟩
      have h2 := hres
      simp only [computeNodeStyle, hc] at h2
      injection h2 with h3
      subst h3
      rfl

/-- C7 counterexample: with an empty hop-color array (a configuration shape the
claim explicitly covers), a hop-1 node's style computation reaches
`parseColor(undefined)` and throws instead of falling back to a default. -/
theorem C7_counterexample :
    computeNodeStyle sEmptyHops vaultW (some "a") 1 "b" =
      .error "TypeError: Cannot read properties of undefined" := by rfl

/-- C7 (amended): the Distance Engine and Rule Matcher are total, and the node
style resolver never throws **provided the hop-color array is nonempty**: a
hop index beyond the array falls back to the first hop color (nodes) and the
base edge color (edges).  With an empty hop-color array the node resolver
throws (`C7_counterexample`), so the claim holds only with the empty-array
case excluded. -/
theorem C7_amended_no_throw :
    (∀ (settings : GraphStyleSettings) (vault : Vault) (act : Option String)
        (hopLevel : Int) (nodeId : String),
      settings.hopColors ≠ [] →
      ∃ st, computeNodeStyle settings vault act hopLevel nodeId = .ok st) ∧
    (∀ (settings : GraphStyleSettings) (vault : Vault) (act : Option String)
        (hopLevel : Int) (nodeId : String) (c0 : String),
      ¬ (jsTruthyId act = true ∧ act = some nodeId) →
      0 < hopLevel → hopLevel ≤ (settings.maxHops : Int) →
      (getStyleFromRules vault settings.rules nodeId).bind (fun r => r.color) = none →
      settings.hopColors.get? (hopLevel - 1).toNat = none →
      settings.hopColors.get? 0 = some c0 →
      ∃ st, computeNodeStyle settings vault act hopLevel nodeId = .ok st ∧
        st.tint = parseColor c0) ∧
    (∀ (settings : GraphStyleSettings) (act : Option String)
        (nodeStyles : List (String × NodeStyle)) (hopMapL : List (String × Int))
        (nbh : List (Nat × List String)) (sourceId targetId : Option String) (m : Nat),
      settings.edgeColorMode = .byHop →
      endpointActive act sourceId = false → endpointActive act targetId = false →
      minHopOf (posHop (hopLookup hopMapL sourceId))
        (posHop (hopLookup hopMapL targetId)) = some m →
      m ≤ settings.maxHops → settings.hopEdgeColors.get? (m - 1) = none →
      computeEdgeStyle settings act nodeStyles hopMapL nbh sourceId targetId =
        ⟨parseColor settings.edgeColor, 0.7, settings.defaultEdgeWidth⟩) := by
  refine ⟨?_, ?_, ?_⟩
  · intro settings vault act hopLevel nodeId hne
    have hsome := nodeColorAlphaSize_fst_isSome settings
      ((getStyleFromRules vault settings.rules nodeId).bind (fun r => r.color))
      act hopLevel nodeId hne
    obtain ⟨c, hc⟩ := Option.isSome_iff_exists.mp hsome
    obtain ⟨st, hst, -⟩ := computeNodeStyle_ok_of_color settings vault act hopLevel nodeId c hc
    exact ⟨st, hst⟩
  · intro settings vault act hopLevel nodeId c0 hact h0 hm hrc hidx h00
    have hcol : (nodeColorAlphaSize settings
        ((getStyleFromRules vault settings.rules nodeId).bind (fun r => r.color))
        act hopLevel nodeId).1 = some c0 := by
      unfold nodeColorAlphaSize
      rw [if_neg hact, if_pos (And.intro h0 hm), hrc, hidx, h00]
      rfl
    exact computeNodeStyle_ok_of_color settings vault act hopLevel nodeId c0 hcol
  · intro settings act nodeStyles hopMapL nbh sourceId targetId m hmode hsa hta hmin hle hget
    have hget2 : settings.hopEdgeColors[m - 1]? = none := by simpa using hget
    simp only [computeEdgeStyle, hmode, hsa, hta, Bool.or_self, Bool.false_eq_true,
      if_neg, hmin]
    simp [hle, hget2, jsOrStrD]

theorem C7_amended_no_throw_witness :
    (sW.hopColors ≠ [] ∧
      ∃ st, computeNodeStyle sW vaultW (some "a") 7 "b" = .ok st) ∧
    (sW.hopColors.get? (((7 : Int) - 1)).toNat = none ∧ sW.hopColors.get? 0 = some "#4ECDC4" ∧
      ∃ st, computeNodeStyle { sW with maxHops := 7 } vaultW (some "a") 7 "b" = .ok st ∧
        st.tint = parseColor "#4ECDC4") :=
  ⟨⟨by decide, C7_amended_no_throw.1 sW vaultW (some "a") 7 "b" (by decide)⟩,
    ⟨by decide, by decide,
      C7_amended_no_throw.2.1 { sW with maxHops := 7 } vaultW (some "a") 7 "b" "#4ECDC4"
        (by decide) (by decide) (by decide) (by decide) (by decide) (by decide)⟩⟩

/-! ### C5: symmetry and key-closure of `buildFromNodes` -/

theorem adjMem_hasKey_left {g : AdjGraph} {a b : String} (h : adjMem g a b) :
    hasKey g a = true := by
  unfold adjMem adj at h
  cases hm : mapGet g a with
  | none => rw [hm] at h; simp at h
  | some l => simp [hasKey, hm]

theorem mapGet_ensureKey (g : AdjGraph) (k x : String) :
    mapGet (if hasKey g k then g else mapSet g k []) x =
      if x = k then some (adj g k) else mapGet g x := by
  by_cases h : hasKey g k = true
  · rw [if_pos h]
    by_cases hx : x = k
    · subst hx
      obtain ⟨l, hl⟩ := Option.isSome_iff_exists.mp h
      simp [adj, hl]
    · simp [hx]
  · have hnone : mapGet g k = none := by
      revert h
      unfold hasKey
      cases mapGet g k <;> simp
    rw [if_neg h, mapGet_mapSet]
    by_cases hx : x = k
    · subst hx
      simp [adj, hnone]
    · rw [if_neg (fun he => hx he.symm), if_neg hx]

theorem mapGet_addEdge (g : AdjGraph) (u v x : String) :
    mapGet (addEdge g u v) x =
      if v = x then some (setAdd (if u = v then setAdd (adj g u) v else adj g v) u)
      else if u = x then some (setAdd (adj g u) v)
      else mapGet g x := by
  unfold addEdge
  simp only []
  have hE1 : ∀ y, mapGet (if hasKey g u then g else mapSet g u []) y =
      if y = u then some (adj g u) else mapGet g y := mapGet_ensureKey g u
  set E1 := if hasKey g u then g else mapSet g u [] with hE1def
  have hE2 : ∀ y, mapGet (if hasKey E1 v then E1 else mapSet E1 v []) y =
      if y = v then some (adj E1 v) else mapGet E1 y := mapGet_ensureKey E1 v
  set E2 := if hasKey E1 v then E1 else mapSet E1 v [] with hE2def
  have hadjE1v : adj E1 v = if v = u then adj g u else adj g v := by
    unfold adj
    rw [hE1 v]
    by_cases hvu : v = u <;> simp [hvu, adj]
  have hE2u : mapGet E2 u = some (adj g u) := by
    rw [hE2 u]
    by_cases huv : u = v
    · rw [if_pos huv, hadjE1v, if_pos huv.symm]
    · rw [if_neg huv, hE1 u, if_pos rfl]
  have hadjE2u : (mapGet E2 u).getD [] = adj g u := by rw [hE2u]; rfl
  rw [hadjE2u]
  have hG3 : ∀ y, mapGet (mapSet E2 u (setAdd (adj g u) v)) y =
      if u = y then some (setAdd (adj g u) v) else mapGet E2 y :=
    fun y => mapGet_mapSet E2 u y (setAdd (adj g u) v)
  set G3 := mapSet E2 u (setAdd (adj g u) v) with hG3def
  have hadjG3v : (mapGet G3 v).getD [] = if u = v then setAdd (adj g u) v else adj g v := by
    rw [hG3 v]
    by_cases huv : u = v
    · rw [if_pos huv, if_pos huv]
      rfl
    · rw [if_neg huv, if_neg huv, hE2 v, if_pos rfl, hadjE1v,
        if_neg (fun he => huv he.symm)]
      rfl
  rw [hadjG3v, mapGet_mapSet]
  by_cases hvx : v = x
  · rw [if_pos hvx, if_pos hvx]
  · rw [if_neg hvx, if_neg hvx, hG3 x]
    by_cases hux : u = x
    · rw [if_pos hux, if_pos hux]
    · rw [if_neg hux, if_neg hux, hE2 x, if_neg (fun he => hvx he.symm), hE1 x,
        if_neg (fun he => hux he.symm)]

theorem adjMem_addEdge (g : AdjGraph) (u v a b : String) :
    adjMem (addEdge g u v) a b ↔ adjMem g a b ∨ (a = u ∧ b = v) ∨ (a = v ∧ b = u) := by
  unfold adjMem adj
  rw [mapGet_addEdge]
  by_cases hva : v = a
  · subst hva
    rw [if_pos rfl, Option.getD_some, mem_setAdd]
    by_cases huv : u = v
    · subst huv
      rw [if_pos rfl, mem_setAdd]
      constructor
      · rintro ((hb | rfl) | rfl)
        · exact Or.inl hb
        · exact Or.inr (Or.inl ⟨rfl, rfl⟩)
        · exact Or.inr (Or.inl ⟨rfl, rfl⟩)
      · rintro (hb | ⟨-, rfl⟩ | ⟨-, rfl⟩)
        · exact Or.inl (Or.inl hb)
        · exact Or.inl (Or.inr rfl)
        · exact Or.inl (Or.inr rfl)
    · rw [if_neg huv]
      constructor
      · rintro (hb | rfl)
        · exact Or.inl hb
        · exact Or.inr (Or.inr ⟨rfl, rfl⟩)
      · rintro (hb | ⟨rfl, rfl⟩ | ⟨-, rfl⟩)
        · exact Or.inl hb
        · exact absurd rfl huv
        · exact Or.inr rfl
  · rw [if_neg hva]
    by_cases hua : u = a
    · subst hua
      rw [if_pos rfl, Option.getD_some, mem_setAdd]
      constructor
      · rintro (hb | rfl)
        · exact Or.inl hb
        · exact Or.inr (Or.inl ⟨rfl, rfl⟩)
      · rintro (hb | ⟨-, rfl⟩ | ⟨rfl, -⟩)
        · exact Or.inl hb
        · exact Or.inr rfl
        · exact absurd rfl hva
    · rw [if_neg hua]
      constructor
      · exact fun hb => Or.inl hb
      · rintro (hb | ⟨rfl, -⟩ | ⟨rfl, -⟩)
        · exact hb
        · exact absurd rfl hua
        · exact absurd rfl hva

theorem hasKey_addEdge (g : AdjGraph) (u v x : String) :
    hasKey (addEdge g u v) x = true ↔ hasKey g x = true ∨ x = u ∨ x = v := by
  unfold hasKey
  rw [mapGet_addEdge]
  by_cases hvx : v = x
  · subst hvx
    rw [if_pos rfl]
    exact ⟨fun _ => Or.inr (Or.inr rfl), fun _ => rfl⟩
  · rw [if_neg hvx]
    by_cases hux : u = x
    · subst hux
      rw [if_pos rfl]
      exact ⟨fun _ => Or.inr (Or.inl rfl), fun _ => rfl⟩
    · rw [if_neg hux]
      constructor
      · exact fun h => Or.inl h
      · rintro (h | rfl | rfl)
        · exact h
        · exact absurd rfl hux
        · exact absurd rfl hvx

theorem SymClosed_addEdge {g : AdjGraph} (h : SymClosed g) (u v : String) :
    SymClosed (addEdge g u v) := by
  constructor
  · intro a b hab
    rw [adjMem_addEdge] at hab ⊢
    rcases hab with hab | ⟨rfl, rfl⟩ | ⟨rfl, rfl⟩
    · exact Or.inl (h.1 a b hab)
    · exact Or.inr (Or.inr ⟨rfl, rfl⟩)
    · exact Or.inr (Or.inl ⟨rfl, rfl⟩)
  · intro a b hab
    rw [adjMem_addEdge] at hab
    rw [hasKey_addEdge]
    rcases hab with hab | ⟨-, rfl⟩ | ⟨-, rfl⟩
    · exact Or.inl (h.2 a b hab)
    · exact Or.inr (Or.inr rfl)
    · exact Or.inr (Or.inl rfl)

theorem adjMem_ensureKey (g : AdjGraph) (k a b : String) :
    adjMem (if hasKey g k then g else mapSet g k []) a b ↔ adjMem g a b := by
  unfold adjMem adj
  rw [mapGet_ensureKey]
  by_cases ha : a = k
  · subst ha
    simp [adj]
  · rw [if_neg ha]

theorem hasKey_ensureKey (g : AdjGraph) (k x : String) (h : hasKey g x = true) :
    hasKey (if hasKey g k then g else mapSet g k []) x = true := by
  show (mapGet (if hasKey g k then g else mapSet g k []) x).isSome = true
  rw [mapGet_ensureKey]
  by_cases hx : x = k
  · rw [if_pos hx]
    rfl
  · rw [if_neg hx]
    exact h

theorem SymClosed_ensureKey {g : AdjGraph} (h : SymClosed g) (k : String) :
    SymClosed (if hasKey g k then g else mapSet g k []) := by
  constructor
  · intro a b hab
    rw [adjMem_ensureKey] at hab ⊢
    exact h.1 a b hab
  · intro a b hab
    rw [adjMem_ensureKey] at hab
    exact hasKey_ensureKey g k b (h.2 a b hab)

theorem foldl_preserve {β : Type} (P : AdjGraph → Prop) (f : AdjGraph → β → AdjGraph)
    (hf : ∀ g x, P g → P (f g x)) :
    ∀ (l : List β) (g : AdjGraph), P g → P (l.foldl f g) := by
  intro l
  induction l with
  | nil => exact fun g hg => hg
  | cons x xs ih => exact fun g hg => ih (f g x) (hf g x hg)

theorem SymClosed_nil : SymClosed ([] : AdjGraph) := by
  constructor <;> intro a b hab <;>
    exact absurd hab (by simp [adjMem, adj, mapGet])

theorem SymClosed_buildFromNodes (input : NodesInput) : SymClosed (buildFromNodes input) := by
  unfold buildFromNodes
  simp only []
  refine foldl_preserve SymClosed _ ?hstep (nodeEntriesOf input) _
    (foldl_preserve SymClosed _ (fun g e hg => SymClosed_ensureKey hg e.1)
      (nodeEntriesOf input) [] SymClosed_nil)
  intro g e hg
  obtain ⟨i, d⟩ := e
  cases d with
  | nullNode => exact hg
  | node fwd rev =>
      show SymClosed (List.foldl (fun gg src => addEdge gg src i)
        (List.foldl (fun gg t => addEdge gg i t) g (getLinks fwd)) (getLinks rev))
      exact foldl_preserve SymClosed _ (fun g2 src hg2 => SymClosed_addEdge hg2 src i) _ _
        (foldl_preserve SymClosed _ (fun g2 t hg2 => SymClosed_addEdge hg2 i t) _ _ hg)

/-- C5: after `buildFromNodes` on any input collection (map, array or record),
the adjacency structure is symmetric — `b ∈ adj(a)` iff `a ∈ adj(b)` — and
key-closed: both endpoints of any adjacency, in particular every id appearing
in a neighbor set, are keys of the adjacency map. -/
theorem C5_build_symmetric_closed (input : NodesInput) :
    (∀ a b, adjMem (buildFromNodes input) a b ↔ adjMem (buildFromNodes input) b a) ∧
    (∀ a b, adjMem (buildFromNodes input) a b →
      hasKey (buildFromNodes input) a = true ∧ hasKey (buildFromNodes input) b = true) := by
  have h := SymClosed_buildFromNodes input
  constructor
  · exact fun a b => ⟨h.1 a b, h.1 b a⟩
  · exact fun a b hab => ⟨adjMem_hasKey_left hab, h.2 a b hab⟩

theorem C5_build_symmetric_closed_witness :
    adjMem (buildFromNodes inputW) "A" "B" ∧
    adjMem (buildFromNodes inputW) "B" "A" ∧
    (hasKey (buildFromNodes inputW) "A" = true ∧ hasKey (buildFromNodes inputW) "B" = true) :=
  ⟨by decide, ((C5_build_symmetric_closed inputW).1 "A" "B").mp (by decide),
    (C5_build_symmetric_closed inputW).2 "A" "B" (by decide)⟩

/-! ### C8: `getAllConnectedNodes` -/

theorem conn_final {g : AdjGraph} {s : String} {visited connected : List String}
    (hinv : ConnInv g s visited [] connected) :
    (s ∉ connected) ∧
    (∀ x, ReachableFrom g s x → x ≠ s → x ∈ connected) ∧
    (∀ x, x ∈ connected → ReachableFrom g s x ∧ x ≠ s) := by
  have hcl : ∀ x, x ∈ visited → ∀ y, adjMem g x y → y ∈ visited := by
    intro x hx y hy
    rcases hinv.vis_proc x hx with hq | hov
    · cases hq
    · exact hov y hy
  refine ⟨?_, ?_, ?_⟩
  · intro hs
    exact (hinv.conn_sub s hs).2 rfl
  · intro x hr hne
    have hx : x ∈ visited := reach_closed hinv.src_vis hcl x hr
    rcases hinv.vis_conn x hx with rfl | hq | hc
    · exact absurd rfl hne
    · cases hq
    · exact hc
  · intro x hx
    exact ⟨hinv.vis_reach x (hinv.conn_sub x hx).1, (hinv.conn_sub x hx).2⟩

theorem connLoop_out (g : AdjGraph) (s : String) :
    ∀ (fuel : Nat) (visited queue connected : List String),
      ConnInv g s visited queue connected →
      queue.length + unvisitedCount (allNeighborIds g) visited ≤ fuel →
      (s ∉ connLoop g s fuel visited queue connected) ∧
      (∀ x, ReachableFrom g s x → x ≠ s → x ∈ connLoop g s fuel visited queue connected) ∧
      (∀ x, x ∈ connLoop g s fuel visited queue connected →
        ReachableFrom g s x ∧ x ≠ s) := by
  intro fuel
  induction fuel with
  | zero =>
      intro visited queue connected hinv hfuel
      cases queue with
      | nil => exact conn_final hinv
      | cons q0 qt => simp at hfuel
  | succ n ih =>
      intro visited queue connected hinv hfuel
      cases queue with
      | nil => exact conn_final hinv
      | cons x0 qt =>
          have hstep : connLoop g s (n + 1) visited (x0 :: qt) connected =
              connLoop g s n (visited ++ freshOnes visited (adj g x0))
                (qt ++ freshOnes visited (adj g x0))
                (if x0 = s then connected else setAdd connected x0) := by
            show (let connected1 := if x0 = s then connected else setAdd connected x0
                  let vq := enqueueAll visited qt (adj g x0)
                  connLoop g s n vq.1 vq.2 connected1) = _
            rw [enqueueAll_eq]
          rw [hstep]
          set ns := adj g x0 with hns
          set fresh := freshOnes visited ns with hfresh
          have hx0v : x0 ∈ visited := hinv.queue_sub x0 (List.mem_cons_self _ _)
          have hx0r : ReachableFrom g s x0 := hinv.vis_reach x0 hx0v
          have hfr_sub : ∀ x, x ∈ fresh → x ∈ ns ∧ x ∉ visited :=
            fun x hx => freshOnes_sub ns visited x hx
          have hvsub : ∀ x, x ∈ visited → x ∈ visited ++ fresh :=
            fun x hx => List.mem_append_left _ hx
          have hconn1 : ∀ x, x ∈ connected →
              x ∈ (if x0 = s then connected else setAdd connected x0) := by
            intro x hx
            by_cases h0 : x0 = s
            · rwa [if_pos h0]
            · rw [if_neg h0]
              exact mem_setAdd.mpr (Or.inl hx)
          refine ih _ _ _ ?_ ?_
          · constructor
            · intro x hx
              rcases List.mem_append.mp hx with hx2 | hx2
              · exact hvsub x (hinv.queue_sub x (List.mem_cons_of_mem _ hx2))
              · exact List.mem_append_right _ hx2
            · intro x hx
              rcases List.mem_append.mp hx with hx2 | hx2
              · exact hinv.vis_reach x hx2
              · exact reach_step hx0r (hfr_sub x hx2).1
            · intro x hx
              rcases List.mem_append.mp hx with hx2 | hx2
              · rcases hinv.vis_proc x hx2 with hq | hcl
                · rcases List.mem_cons.mp hq with rfl | hq2
                  · right
                    intro y hy
                    exact mem_visited_after ns visited y hy
                  · exact Or.inl (List.mem_append_left _ hq2)
                · right
                  exact fun y hy => hvsub y (hcl y hy)
              · left
                exact List.mem_append_right _ hx2
            · intro x hx
              rcases List.mem_append.mp hx with hx2 | hx2
              · rcases hinv.vis_conn x hx2 with rfl | hq | hc
                · exact Or.inl rfl
                · rcases List.mem_cons.mp hq with rfl | hq2
                  · by_cases h0 : x = s
                    · exact Or.inl h0
                    · right; right
                      rw [if_neg h0]
                      exact mem_setAdd.mpr (Or.inr rfl)
                  · exact Or.inr (Or.inl (List.mem_append_left _ hq2))
                · exact Or.inr (Or.inr (hconn1 x hc))
              · exact Or.inr (Or.inl (List.mem_append_right _ hx2))
            · intro x hx
              by_cases h0 : x0 = s
              · rw [if_pos h0] at hx
                obtain ⟨h1, h2⟩ := hinv.conn_sub x hx
                exact ⟨hvsub x h1, h2⟩
              · rw [if_neg h0] at hx
                rcases mem_setAdd.mp hx with hx2 | rfl
                · obtain ⟨h1, h2⟩ := hinv.conn_sub x hx2
                  exact ⟨hvsub x h1, h2⟩
                · exact ⟨hvsub x hx0v, h0⟩
            · exact hvsub s hinv.src_vis
          · have hm := freshOnes_measure (allNeighborIds g) ns visited
              (fun y hy => adj_sub_allNeighborIds g x0 y hy)
            rw [← hfresh] at hm
            rw [List.length_append]
            simp only [List.length_cons] at hfuel
            omega

/-- C8: for every adjacency graph and every source node present in it, the set
returned by `getAllConnectedNodes` never contains the source itself, while
containing every other node reachable from the source by any path (and only
such nodes). -/
theorem C8_connected_set (g : AdjGraph) (s : String) (hkey : hasKey g s = true) :
    (s ∉ getAllConnectedNodes g s) ∧
    (∀ x, ReachableFrom g s x → x ≠ s → x ∈ getAllConnectedNodes g s) ∧
    (∀ x, x ∈ getAllConnectedNodes g s → ReachableFrom g s x ∧ x ≠ s) := by
  unfold getAllConnectedNodes
  rw [if_pos hkey]
  refine connLoop_out g s (bfsFuel g) [s] [s] [] ?_ ?_
  · constructor
    · intro x hx
      exact hx
    · intro x hx
      rcases List.mem_singleton.mp hx with rfl
      exact ⟨0, .refl⟩
    · intro x hx
      exact Or.inl hx
    · intro x hx
      rcases List.mem_singleton.mp hx with rfl
      exact Or.inl rfl
    · intro x hx
      cases hx
    · exact List.mem_singleton.mpr rfl
  · have h1 : unvisitedCount (allNeighborIds g) [s] ≤ (allNeighborIds g).length := by
      unfold unvisitedCount
      exact List.length_filter_le _ _
    unfold bfsFuel
    simp only [List.length_singleton]
    omega

theorem C8_connected_set_witness :
    hasKey gW "B" = true ∧
    ((("B" : String) ∉ getAllConnectedNodes gW "B") ∧
      (∀ x, ReachableFrom gW "B" x → x ≠ "B" → x ∈ getAllConnectedNodes gW "B") ∧
      (∀ x, x ∈ getAllConnectedNodes gW "B" →
        ReachableFrom gW "B" x ∧ x ≠ "B")) ∧
    "D" ∈ getAllConnectedNodes gW "B" :=
  have hD : ReachableFrom gW "B" "D" :=
    ⟨2, .step (.step .refl (by decide : adjMem gW "B" "C") : PathTo gW "B" "C" 1)
      (by decide : adjMem gW "C" "D")⟩
  ⟨by decide, C8_connected_set gW "B" (by decide),
    (C8_connected_set gW "B" (by decide)).2.1 "D" hD (by decide)⟩

/-! ### C1: `findNeighborsByHop` computes exact shortest hop distances -/

theorem resultAdd_keys (R : List (Nat × List String)) (d : Nat) (x : String) (h : Nat) :
    (mapGet (resultAdd R d x) h).isSome = (mapGet R h).isSome := by
  unfold resultAdd
  cases hm : mapGet R d with
  | none => rfl
  | some l =>
      rw [mapGet_mapSet]
      by_cases hd : d = h
      · rw [if_pos hd]
        subst hd
        rw [hm]
        rfl
      · rw [if_neg hd]

theorem hopMem_resultAdd_of {R : List (Nat × List String)} {d : Nat} {y : String}
    {h : Nat} {x : String} (hm : hopMem R h x) : hopMem (resultAdd R d y) h x := by
  obtain ⟨l, hl, hxl⟩ := hm
  unfold resultAdd
  cases hd : mapGet R d with
  | none => exact ⟨l, hl, hxl⟩
  | some ld =>
      by_cases hdh : d = h
      · subst hdh
        rw [hd] at hl
        injection hl with hl2
        subst hl2
        exact ⟨setAdd ld y, by rw [mapGet_mapSet, if_pos rfl], mem_setAdd.mpr (Or.inl hxl)⟩
      · exact ⟨l, by rw [mapGet_mapSet, if_neg hdh]; exact hl, hxl⟩

theorem hopMem_resultAdd_self {R : List (Nat × List String)} {d : Nat} {x : String}
    (h : (mapGet R d).isSome = true) : hopMem (resultAdd R d x) d x := by
  obtain ⟨l, hl⟩ := Option.isSome_iff_exists.mp h
  unfold resultAdd
  rw [hl]
  exact ⟨setAdd l x, by rw [mapGet_mapSet, if_pos rfl], mem_setAdd.mpr (Or.inr rfl)⟩

theorem hopMem_resultAdd_elim {R : List (Nat × List String)} {d : Nat} {y : String}
    {h : Nat} {x : String} (hm : hopMem (resultAdd R d y) h x) :
    hopMem R h x ∨ (h = d ∧ x = y) := by
  obtain ⟨l, hl, hxl⟩ := hm
  unfold resultAdd at hl
  cases hd : mapGet R d with
  | none =>
      rw [hd] at hl
      exact Or.inl ⟨l, hl, hxl⟩
  | some ld =>
      rw [hd, mapGet_mapSet] at hl
      by_cases hdh : d = h
      · rw [if_pos hdh] at hl
        injection hl with hl2
        subst hl2
        rcases mem_setAdd.mp hxl with hx2 | rfl
        · exact Or.inl ⟨ld, hdh ▸ hd, hx2⟩
        · exact Or.inr ⟨hdh.symm, rfl⟩
      · rw [if_neg hdh] at hl
        exact Or.inl ⟨l, hl, hxl⟩

theorem bfs_final {g : AdjGraph} {s : String} {maxHops : Nat} {visited : List String}
    {result : List (Nat × List String)}
    (hinv : BfsInv g s maxHops visited [] result) :
    (∀ h x, hopMem result h x ↔ (IsShortest g s x h ∧ 1 ≤ h ∧ h ≤ maxHops)) ∧
    (∀ h, (mapGet result h).isSome = true ↔ (1 ≤ h ∧ h ≤ maxHops)) := by
  have hvis_all : ∀ k, k ≤ maxHops → ∀ x, IsShortest g s x k → x ∈ visited := by
    intro k
    induction k with
    | zero =>
        intro _ x hx
        rw [isShortest_zero] at hx
        subst hx
        exact hinv.src_vis
    | succ k ihk =>
        intro hk x hx
        obtain ⟨y, hadj, hy⟩ := isShortest_decompose hx
        have hyv : y ∈ visited := ihk (by omega) y hy
        obtain ⟨k2, hk2, hpos⟩ := hinv.vis_spec y hyv
        have hk2k : k2 = k := isShortest_unique hk2 hy
        subst hk2k
        rcases hpos with hq | ⟨-, hcl⟩
        · cases hq
        · exact hcl (by omega) x hadj
  refine ⟨?_, hinv.res_keys⟩
  intro h x
  constructor
  · intro hm
    have hs := hinv.res_sound h x hm
    have hk : (mapGet result h).isSome = true := by
      obtain ⟨l, hl, -⟩ := hm
      simp [hl]
    exact ⟨hs, (hinv.res_keys h).mp hk⟩
  · rintro ⟨hs, h1, h2⟩
    have hx : x ∈ visited := hvis_all h h2 x hs
    obtain ⟨k, hk, hpos⟩ := hinv.vis_spec x hx
    have hkh : k = h := isShortest_unique hk hs
    subst hkh
    rcases hpos with hq | ⟨hres, -⟩
    · cases hq
    · exact hres h1 h2

theorem pairwise_map_const_dist (l : List String) (dd : Nat) :
    (l.map (fun z => (z, dd))).Pairwise
      (fun e1 e2 : String × Nat => e1.2 ≤ e2.2 ∧ e2.2 ≤ e1.2 + 1) := by
  induction l with
  | nil => exact List.Pairwise.nil
  | cons a l2 ih =>
      rw [List.map_cons]
      refine List.Pairwise.cons ?_ ih
      intro b hb
      obtain ⟨z, -, rfl⟩ := List.mem_map.mp hb
      exact ⟨Nat.le_refl _, Nat.le_succ _⟩

theorem bfsLoop_out (g : AdjGraph) (s : String) (maxHops : Nat) :
    ∀ (fuel : Nat) (visited : List String) (queue : List (String × Nat))
      (result : List (Nat × List String)),
      BfsInv g s maxHops visited queue result →
      queue.length + unvisitedCount (allNeighborIds g) visited ≤ fuel →
      (∀ h x, hopMem (bfsLoop g maxHops fuel visited queue result) h x ↔
        (IsShortest g s x h ∧ 1 ≤ h ∧ h ≤ maxHops)) ∧
      (∀ h, (mapGet (bfsLoop g maxHops fuel visited queue result) h).isSome = true ↔
        (1 ≤ h ∧ h ≤ maxHops)) := by
  intro fuel
  induction fuel with
  | zero =>
      intro visited queue result hinv hfuel
      cases queue with
      | nil => exact bfs_final hinv
      | cons e qt => simp at hfuel
  | succ n ih =>
      intro visited queue result hinv hfuel
      cases queue with
      | nil => exact bfs_final hinv
      | cons e qt =>
          obtain ⟨x0, d⟩ := e
          have hx0s : IsShortest g s x0 d := hinv.queue_dist _ (List.mem_cons_self _ _)
          have hx0v : x0 ∈ visited := hinv.queue_sub _ (List.mem_cons_self _ _)
          have hdle : d ≤ maxHops := hinv.queue_le _ (List.mem_cons_self _ _)
          have hfront0 : ∀ z k, IsShortest g s z k → k ≤ d → z ∈ visited :=
            hinv.frontier (x0, d) qt rfl
          have hpc := List.pairwise_cons.mp hinv.queue_sorted
          have hrel_head : ∀ e2, e2 ∈ qt → d ≤ e2.2 ∧ e2.2 ≤ d + 1 := hpc.1
          have hsorted_tail := hpc.2
          have hR1keys : ∀ h,
              (mapGet (if 0 < d ∧ d ≤ maxHops then resultAdd result d x0 else result)
                h).isSome = true ↔ (1 ≤ h ∧ h ≤ maxHops) := by
            intro h
            by_cases hc : 0 < d ∧ d ≤ maxHops
            · rw [if_pos hc, resultAdd_keys]
              exact hinv.res_keys h
            · rw [if_neg hc]
              exact hinv.res_keys h
          have hR1sound : ∀ h x,
              hopMem (if 0 < d ∧ d ≤ maxHops then resultAdd result d x0 else result) h x →
              IsShortest g s x h := by
            intro h x hm
            by_cases hc : 0 < d ∧ d ≤ maxHops
            · rw [if_pos hc] at hm
              rcases hopMem_resultAdd_elim hm with hm2 | ⟨rfl, rfl⟩
              · exact hinv.res_sound h x hm2
              · exact hx0s
            · rw [if_neg hc] at hm
              exact hinv.res_sound h x hm
          have hR1mono : ∀ h x, hopMem result h x →
              hopMem (if 0 < d ∧ d ≤ maxHops then resultAdd result d x0 else result) h x := by
            intro h x hm
            by_cases hc : 0 < d ∧ d ≤ maxHops
            · rw [if_pos hc]
              exact hopMem_resultAdd_of hm
            · rw [if_neg hc]
              exact hm
          have hR1self : 1 ≤ d → d ≤ maxHops →
              hopMem (if 0 < d ∧ d ≤ maxHops then resultAdd result d x0 else result) d x0 := by
            intro h1 h2
            rw [if_pos ⟨h1, h2⟩]
            exact hopMem_resultAdd_self ((hinv.res_keys d).mpr ⟨h1, h2⟩)
          by_cases hd : d < maxHops
          · -- expansion step
            have hstep : bfsLoop g maxHops (n + 1) visited ((x0, d) :: qt) result =
                bfsLoop g maxHops n (visited ++ freshOnes visited (adj g x0))
                  (qt ++ (freshOnes visited (adj g x0)).map (fun z => (z, d + 1)))
                  (if 0 < d ∧ d ≤ maxHops then resultAdd result d x0 else result) := by
              show (let result1 :=
                      if 0 < d ∧ d ≤ maxHops then resultAdd result d x0 else result
                    if d < maxHops then
                      let vq := enqueueNeighbors visited qt d (adj g x0)
                      bfsLoop g maxHops n vq.1 vq.2 result1
                    else bfsLoop g maxHops n visited qt result1) = _
              rw [if_pos hd, enqueueNeighbors_eq]
            rw [hstep]
            have hfr_sub : ∀ x, x ∈ freshOnes visited (adj g x0) →
                x ∈ adj g x0 ∧ x ∉ visited :=
              fun x hx => freshOnes_sub (adj g x0) visited x hx
            have hfresh_short : ∀ x, x ∈ freshOnes visited (adj g x0) →
                IsShortest g s x (d + 1) := by
              intro x hx
              exact isShortest_succ_of_unvisited hx0s (hfr_sub x hx).1 (hfr_sub x hx).2 hfront0
            have hv'sub : ∀ x, x ∈ visited → x ∈ visited ++ freshOnes visited (adj g x0) :=
              fun x hx => List.mem_append_left _ hx
            have hkey : (∀ z, z ∈ qt → d + 1 ≤ z.2) →
                ∀ x k, IsShortest g s x k → k ≤ d + 1 →
                x ∈ visited ++ freshOnes visited (adj g x0) := by
              intro hqt_ge x k hk hke
              rcases Nat.lt_or_ge k (d + 1) with hlt | hge
              · exact hv'sub x (hfront0 x k hk (by omega))
              · have hkd : k = d + 1 := by omega
                subst hkd
                obtain ⟨y, hadj, hy⟩ := isShortest_decompose hk
                have hyv : y ∈ visited := hfront0 y d hy (Nat.le_refl d)
                obtain ⟨k2, hk2, hpos⟩ := hinv.vis_spec y hyv
                have hk2d : k2 = d := isShortest_unique hk2 hy
                rw [hk2d] at hpos
                rcases hpos with hq | ⟨-, hcl⟩
                · rcases List.mem_cons.mp hq with heq | hq2
                  · have hyx0 : y = x0 := congrArg Prod.fst heq
                    subst hyx0
                    exact mem_visited_after (adj g y) visited x hadj
                  · have := hqt_ge (y, d) hq2
                    simp at this
                · exact hv'sub x (hcl hd x hadj)
            refine ih _ _ _ ?_ ?_
            · constructor
              · intro e2 he2
                rcases List.mem_append.mp he2 with h2 | h2
                · exact hv'sub _ (hinv.queue_sub e2 (List.mem_cons_of_mem _ h2))
                · obtain ⟨z, hz, rfl⟩ := List.mem_map.mp h2
                  exact List.mem_append_right _ hz
              · intro e2 he2
                rcases List.mem_append.mp he2 with h2 | h2
                · exact hinv.queue_dist e2 (List.mem_cons_of_mem _ h2)
                · obtain ⟨z, hz, rfl⟩ := List.mem_map.mp h2
                  exact hfresh_short z hz
              · intro e2 he2
                rcases List.mem_append.mp he2 with h2 | h2
                · exact hinv.queue_le e2 (List.mem_cons_of_mem _ h2)
                · obtain ⟨z, hz, rfl⟩ := List.mem_map.mp h2
                  omega
              · rw [List.pairwise_append]
                refine ⟨hsorted_tail, pairwise_map_const_dist _ _, ?_⟩
                intro a ha b hb
                obtain ⟨z, hz, rfl⟩ := List.mem_map.mp hb
                have := hrel_head a ha
                exact ⟨by omega, by omega⟩
              · exact hR1keys
              · exact hR1sound
              · intro x hx
                rcases List.mem_append.mp hx with h2 | h2
                · obtain ⟨k, hk, hpos⟩ := hinv.vis_spec x h2
                  refine ⟨k, hk, ?_⟩
                  rcases hpos with hq | ⟨hres, hcl⟩
                  · rcases List.mem_cons.mp hq with heq | hq2
                    · have hxx0 : x = x0 := congrArg Prod.fst heq
                      have hkd : k = d := congrArg Prod.snd heq
                      subst hxx0
                      subst hkd
                      refine Or.inr ⟨fun h1 h2 => hR1self h1 h2, ?_⟩
                      intro _ y hy
                      exact mem_visited_after (adj g x) visited y hy
                    · exact Or.inl (List.mem_append_left _ hq2)
                  · refine Or.inr ⟨fun h1 h2 => hR1mono _ _ (hres h1 h2), ?_⟩
                    intro hlt y hy
                    exact hv'sub y (hcl hlt y hy)
                · refine ⟨d + 1, hfresh_short x h2, Or.inl ?_⟩
                  exact List.mem_append_right _ (List.mem_map_of_mem _ h2)
              · intro e2 qt2 heq x k hk hke
                cases hqt : qt with
                | nil =>
                    rw [hqt] at heq
                    simp only [List.nil_append] at heq
                    have he2m : e2 ∈ (freshOnes visited (adj g x0)).map
                        (fun z => (z, d + 1)) := by
                      rw [heq]
                      exact List.mem_cons_self _ _
                    obtain ⟨z, hz, hze⟩ := List.mem_map.mp he2m
                    have he2d : e2.2 = d + 1 := by rw [← hze]
                    rw [he2d] at hke
                    exact hkey (by intro z2 hz2; rw [hqt] at hz2; cases hz2) x k hk hke
                | cons e0 qt0 =>
                    rw [hqt] at heq
                    rw [List.cons_append] at heq
                    injection heq with heq1 heq2
                    subst heq1
                    have he0 := hrel_head e0 (by rw [hqt]; exact List.mem_cons_self _ _)
                    by_cases he0d : e0.2 ≤ d
                    · exact hv'sub x (hfront0 x k hk (by omega))
                    · have he0d2 : e0.2 = d + 1 := by omega
                      rw [he0d2] at hke
                      refine hkey ?_ x k hk hke
                      intro z2 hz2
                      rw [hqt] at hz2
                      rcases List.mem_cons.mp hz2 with rfl | hz3
                      · omega
                      · have hp2 := List.pairwise_cons.mp (hqt ▸ hsorted_tail)
                        have := (hp2.1 z2 hz3).1
                        omega
              · exact hv'sub s hinv.src_vis
            · have hm := freshOnes_measure (allNeighborIds g) (adj g x0) visited
                (fun y hy => adj_sub_allNeighborIds g x0 y hy)
              rw [List.length_append, List.length_map]
              simp only [List.length_cons] at hfuel
              omega
          · -- no expansion: d = maxHops (or maxHops = 0 and d = 0)
            have hstep : bfsLoop g maxHops (n + 1) visited ((x0, d) :: qt) result =
                bfsLoop g maxHops n visited qt
                  (if 0 < d ∧ d ≤ maxHops then resultAdd result d x0 else result) := by
              show (let result1 :=
                      if 0 < d ∧ d ≤ maxHops then resultAdd result d x0 else result
                    if d < maxHops then
                      let vq := enqueueNeighbors visited qt d (adj g x0)
                      bfsLoop g maxHops n vq.1 vq.2 result1
                    else bfsLoop g maxHops n visited qt result1) = _
              rw [if_neg hd]
            rw [hstep]
            have hdm : d = maxHops := by omega
            refine ih _ _ _ ?_ ?_
            · constructor
              · exact fun e2 he2 => hinv.queue_sub e2 (List.mem_cons_of_mem _ he2)
              · exact fun e2 he2 => hinv.queue_dist e2 (List.mem_cons_of_mem _ he2)
              · exact fun e2 he2 => hinv.queue_le e2 (List.mem_cons_of_mem _ he2)
              · exact hsorted_tail
              · exact hR1keys
              · exact hR1sound
              · intro x hx
                obtain ⟨k, hk, hpos⟩ := hinv.vis_spec x hx
                refine ⟨k, hk, ?_⟩
                rcases hpos with hq | ⟨hres, hcl⟩
                · rcases List.mem_cons.mp hq with heq | hq2
                  · have hxx0 : x = x0 := congrArg Prod.fst heq
                    have hkd : k = d := congrArg Prod.snd heq
                    subst hxx0
                    subst hkd
                    refine Or.inr ⟨fun h1 h2 => hR1self h1 h2, ?_⟩
                    intro hlt
                    omega
                  · exact Or.inl hq2
                · exact Or.inr ⟨fun h1 h2 => hR1mono _ _ (hres h1 h2), hcl⟩
              · intro e2 qt2 heq x k hk hke
                have he2q : e2 ∈ qt := by
                  rw [heq]
                  exact List.mem_cons_self _ _
                have hle2 : e2.2 ≤ maxHops :=
                  hinv.queue_le e2 (List.mem_cons_of_mem _ he2q)
                exact hfront0 x k hk (by omega)
              · exact hinv.src_vis
            · simp only [List.length_cons] at hfuel
              omega

theorem findNeighborsByHop_spec (g : AdjGraph) (s : String) (m : Nat)
    (hkey : hasKey g s = true) :
    (∀ h x, hopMem (findNeighborsByHop g s m) h x ↔
      (IsShortest g s x h ∧ 1 ≤ h ∧ h ≤ m)) ∧
    (∀ h, (mapGet (findNeighborsByHop g s m) h).isSome = true ↔ (1 ≤ h ∧ h ≤ m)) := by
  unfold findNeighborsByHop
  simp only []
  rw [if_pos hkey]
  refine bfsLoop_out g s m (bfsFuel g) [s] [(s, 0)] (initHops m) ?_ ?_
  · constructor
    · intro e he
      rcases List.mem_singleton.mp he with rfl
      exact List.mem_singleton.mpr rfl
    · intro e he
      rcases List.mem_singleton.mp he with rfl
      exact ⟨.refl, fun k _ => Nat.zero_le k⟩
    · intro e he
      rcases List.mem_singleton.mp he with rfl
      exact Nat.zero_le m
    · exact List.pairwise_singleton _ _
    · intro h
      rw [mapGet_initHops]
      by_cases hc : 1 ≤ h ∧ h ≤ m
      · simp [hc]
      · simp [hc]
    · intro h x hm
      obtain ⟨l, hl, hxl⟩ := hm
      rw [mapGet_initHops] at hl
      by_cases hc : 1 ≤ h ∧ h ≤ m
      · rw [if_pos hc] at hl
        injection hl with hl2
        subst hl2
        cases hxl
      · rw [if_neg hc] at hl
        cases hl
    · intro x hx
      rcases List.mem_singleton.mp hx with rfl
      exact ⟨0, ⟨.refl, fun k _ => Nat.zero_le k⟩, Or.inl (List.mem_singleton.mpr rfl)⟩
    · intro e qt heq x k hk hke
      injection heq with heq1 heq2
      subst heq1
      simp only at hke
      have hk0 : k = 0 := Nat.le_zero.mp hke
      subst hk0
      rw [isShortest_zero] at hk
      subst hk
      exact List.mem_singleton.mpr rfl
    · exact List.mem_singleton.mpr rfl
  · have h1 : unvisitedCount (allNeighborIds g) [s] ≤ (allNeighborIds g).length := by
      unfold unvisitedCount
      exact List.length_filter_le _ _
    unfold bfsFuel
    simp only [List.length_singleton]
    omega

theorem symCheckOn_sound {g : AdjGraph} (h : symCheckOn g = true) :
    ∀ a b, adjMem g a b → adjMem g b a := by
  intro a b hab
  unfold adjMem adj at hab
  cases hm : mapGet g a with
  | none => rw [hm] at hab; cases hab
  | some l =>
      rw [hm] at hab
      simp only [Option.getD_some] at hab
      have hmem : (a, l) ∈ g := mapGet_mem hm
      unfold symCheckOn at h
      rw [List.all_eq_true] at h
      have h2 := h (a, l) hmem
      rw [List.all_eq_true] at h2
      have h3 := h2 b hab
      simpa using h3

theorem uPathTo_iff_pathTo {g : AdjGraph} {s : String}
    (hsym : ∀ a b, adjMem g a b → adjMem g b a) :
    ∀ x n, UPathTo g s x n ↔ PathTo g s x n := by
  intro x n
  constructor
  · intro hp
    induction hp with
    | refl => exact .refl
    | step hp2 hadj ih =>
        rcases hadj with hadj | hadj
        · exact .step ih hadj
        · exact .step ih (hsym _ _ hadj)
  · intro hp
    induction hp with
    | refl => exact .refl
    | step hp2 hadj ih => exact .step ih (Or.inl hadj)

theorem isUShortest_iff {g : AdjGraph} {s : String}
    (hsym : ∀ a b, adjMem g a b → adjMem g b a) (x : String) (n : Nat) :
    IsUShortest g s x n ↔ IsShortest g s x n := by
  unfold IsUShortest IsShortest
  constructor
  · rintro ⟨hp, hmin⟩
    exact ⟨(uPathTo_iff_pathTo hsym x n).mp hp,
      fun k hk => hmin k ((uPathTo_iff_pathTo hsym x k).mpr hk)⟩
  · rintro ⟨hp, hmin⟩
    exact ⟨(uPathTo_iff_pathTo hsym x n).mpr hp,
      fun k hk => hmin k ((uPathTo_iff_pathTo hsym x k).mp hk)⟩

/-- C1: for every adjacency graph (symmetric, as the Graph Builder guarantees),
every source present in it and every `maxHops ≥ 1`, the hop sets returned by
`findNeighborsByHop` are pairwise disjoint, a node is in hop set `h` (for
`1 ≤ h ≤ maxHops`) exactly when its unweighted shortest-path distance from the
source in the undirected graph is `h`, and no node ever appears at a hop
number different from its true shortest distance. -/
theorem C1_hop_classification (g : AdjGraph) (s : String) (m : Nat)
    (hkey : hasKey g s = true) (_hm : 1 ≤ m)
    (hsym : ∀ a b, adjMem g a b → adjMem g b a) :
    (∀ h1 h2 x, h1 ≠ h2 → hopMem (findNeighborsByHop g s m) h1 x →
      hopMem (findNeighborsByHop g s m) h2 x → False) ∧
    (∀ x h, 1 ≤ h → h ≤ m →
      (hopMem (findNeighborsByHop g s m) h x ↔ IsUShortest g s x h)) ∧
    (∀ x h k, hopMem (findNeighborsByHop g s m) h x → IsUShortest g s x k → h = k) := by
  obtain ⟨hiff, hkeys⟩ := findNeighborsByHop_spec g s m hkey
  refine ⟨?_, ?_, ?_⟩
  · intro h1 h2 x hne hm1 hm2
    have hs1 := ((hiff h1 x).mp hm1).1
    have hs2 := ((hiff h2 x).mp hm2).1
    exact hne (isShortest_unique hs1 hs2)
  · intro x h hh1 hh2
    rw [hiff h x, isUShortest_iff hsym]
    constructor
    · exact fun hc => hc.1
    · exact fun hc => ⟨hc, hh1, hh2⟩
  · intro x h k hmem hu
    have hs1 := ((hiff h x).mp hmem).1
    exact isShortest_unique hs1 ((isUShortest_iff hsym x k).mp hu)

theorem C1_hop_classification_witness :
    (hasKey gW "B" = true ∧ 1 ≤ 2 ∧ symCheckOn gW = true) ∧
    ((∀ h1 h2 x, h1 ≠ h2 → hopMem (findNeighborsByHop gW "B" 2) h1 x →
        hopMem (findNeighborsByHop gW "B" 2) h2 x → False) ∧
      (∀ x h, 1 ≤ h → h ≤ 2 →
        (hopMem (findNeighborsByHop gW "B" 2) h x ↔ IsUShortest gW "B" x h)) ∧
      (∀ x h k, hopMem (findNeighborsByHop gW "B" 2) h x →
        IsUShortest gW "B" x k → h = k)) :=
  ⟨⟨by decide, by decide, by decide⟩,
    C1_hop_classification gW "B" 2 (by decide) (by decide)
      (symCheckOn_sound (by decide))⟩


theorem C6_absent_source_witness :
    hasKey [("A", ["B"])] "Z" = false ∧
    ((∀ hp, 1 ≤ hp → hp ≤ 3 → mapGet (findNeighborsByHop [("A", ["B"])] "Z" 3) hp = some []) ∧
      (∀ hp x, ¬ hopMem (findNeighborsByHop [("A", ["B"])] "Z" 3) hp x) ∧
      getAllConnectedNodes [("A", ["B"])] "Z" = []) :=
  ⟨by decide, C6_absent_source [("A", ["B"])] "Z" 3 (by decide)⟩

end GSC
